import Mathlib

/-!
Verification of the cross-platform person-analysis aggregator and its
per-platform extractors.

The development shallowly embeds the analysis pipeline: per-platform
extraction results (`PlatformAnalysis`), the tech-stack and personality
merge rules of the aggregator (`mergeTechStacks`, `mergePersonalities`,
`summarizeCommunicationStyle`, `generateSummary`, `analyze`), the inbound
request validation of the tool-call handler (`validateRequest`), the
microblog extractor's credential-free path (`twitterAnalyze`), the
code-host communication-style classifier (`githubAnalyzeCommStyle`), and
the blog extractor's article discovery (`discoverArticles`).

JavaScript objects used as string-keyed tally records are embedded as
insertion-ordered association lists (`List (String × Int)`); the
JavaScript stable `Array.prototype.sort` with comparator `b[1] - a[1]`
is embedded as `List.mergeSort` with the corresponding total preorder
(the stable sorted permutation under a total preorder is unique, so any
stable sorting algorithm yields the same list).  Number arithmetic on
tally scores is embedded in `Int`, and frequency arithmetic (which
divides) in `ℚ`.  Truthiness tests on optional strings/numbers are
embedded explicitly (`""` and `0` are falsy).
-/

namespace HowPerson

/-! ### Insertion-ordered tally records (`Record<string, number>`) -/

/-- The keys of an association list, in list order. -/
def keysOf (m : List (String × Int)) : List String := m.map Prod.fst

/-- `rec[k] = (rec[k] || 0) + v` on a JavaScript object: if the key is
present its value is updated in place, otherwise the pair is appended
(string-keyed object insertion order). -/
def bump (m : List (String × Int)) (e : String × Int) : List (String × Int) :=
  if e.1 ∈ keysOf m then
    m.map (fun p => if p.1 = e.1 then (p.1, p.2 + e.2) else p)
  else
    m ++ [e]

/-- Accumulate a whole entry list into a record (`for (const [k, v] of entries)`). -/
def accumInto (m : List (String × Int)) (l : List (String × Int)) : List (String × Int) :=
  l.foldl bump m

/-- The score a record associates to a key (`rec[k] || 0`): value of the
first entry with that key, `0` if absent. -/
def scoreIn : List (String × Int) → String → Int
  | [], _ => 0
  | p :: rest, k => if p.1 = k then p.2 else scoreIn rest k

/-- Total contribution of an entry list to one key (every entry with
that key counts, in accumulation order). -/
def entrySum : List (String × Int) → String → Int
  | [], _ => 0
  | e :: rest, k => (if e.1 = k then e.2 else 0) + entrySum rest k

/-- `Set.add` on a JavaScript `Set` kept as its insertion-ordered
element list: append if not yet present. -/
def addTopic (ts : List String) (t : String) : List String :=
  if t ∈ ts then ts else ts ++ [t]

/-- First-occurrence deduplication: the element order produced by adding
a list to an empty JavaScript `Set`. -/
def dedupFirst (l : List String) : List String := l.foldl addTopic []

/-- The total preorder realised by the comparator `(a, b) => b[1] - a[1]`:
`a` may precede `b` iff `b`'s score does not exceed `a`'s. -/
def scoreLE (a b : String × Int) : Bool := decide (b.2 ≤ a.2)

/-- The JavaScript stable sort `entries.sort((a, b) => b[1] - a[1])`:
stable, descending by score. -/
def sortByScore (l : List (String × Int)) : List (String × Int) :=
  l.mergeSort scoreLE

/-- JavaScript `String.prototype.trim`: strip leading and trailing
whitespace (embedded on the character list so that it evaluates inside
the kernel). -/
def trimStr (s : String) : String :=
  String.mk (((s.toList.dropWhile Char.isWhitespace).reverse.dropWhile
    Char.isWhitespace).reverse)

/-! ### Data model (`types.ts`) -/

/-- The four supported platforms. -/
inductive Platform
  | github
  | twitter
  | speakerdeck
  | blog
deriving DecidableEq, Repr

/-- Merged technology profile.  Tally maps are insertion-ordered
association lists (the embedding of string-keyed JavaScript objects). -/
structure TechStack where
  languages : List (String × Int)
  frameworks : List (String × Int)
  tools : List (String × Int)
  topics : List String
deriving DecidableEq, Repr

/-- The `communication` sub-structure of a personality profile; all
fields optional. -/
structure Communication where
  style : Option String := none
  frequency : Option ℚ := none
  topics : Option (List String) := none
deriving DecidableEq, Repr

/-- Merged behavioral profile. -/
structure Personality where
  interests : List String
  activities : List String
  communication : Communication
  workStyle : Option String := none
deriving DecidableEq, Repr

/-- `Partial<TechStack>`: every field may be absent. -/
structure PTechStack where
  languages : Option (List (String × Int)) := none
  frameworks : Option (List (String × Int)) := none
  tools : Option (List (String × Int)) := none
  topics : Option (List String) := none
deriving DecidableEq, Repr

/-- `Partial<Personality>`: every field may be absent. -/
structure PPersonality where
  interests : Option (List String) := none
  activities : Option (List String) := none
  communication : Option Communication := none
  workStyle : Option String := none
deriving DecidableEq, Repr

/-- One platform's analysis result (the opaque `rawData` diagnostics
payload is not part of the published contract and is not modelled). -/
structure PlatformAnalysis where
  platform : Platform
  url : String
  techStack : PTechStack
  personality : PPersonality
deriving DecidableEq, Repr

/-- The final output of one analysis request. -/
structure AnalysisResult where
  platforms : List PlatformAnalysis
  techStack : TechStack
  personality : Personality
  summary : String
deriving DecidableEq, Repr

/-- An inbound tool-call request: four optional URL fields. -/
structure AnalysisRequest where
  github : Option String := none
  twitter : Option String := none
  speakerdeck : Option String := none
  blog : Option String := none
deriving DecidableEq, Repr

/-! ### Aggregator (`analyzer.ts`) -/

/-- One tally field's accumulation loop of `mergeTechStacks`: each
analysis that carries the field has its entries added into the shared
record (`rec[k] = (rec[k] || 0) + score`). -/
def accumField (get : PlatformAnalysis → Option (List (String × Int)))
    (analyses : List PlatformAnalysis) : List (String × Int) :=
  analyses.foldl (fun m a =>
    match get a with
    | some l => accumInto m l
    | none => m) []

/-- One string-set field's accumulation loop: each analysis that
carries the field has its entries added to the insertion-ordered set. -/
def accumStringSet (get : PlatformAnalysis → Option (List String))
    (analyses : List PlatformAnalysis) : List String :=
  analyses.foldl (fun ts a =>
    match get a with
    | some l => l.foldl addTopic ts
    | none => ts) []

/-- `PersonAnalyzer.mergeTechStacks`: additive union of the per-platform
tallies, set union of topics, each tally presented sorted descending by
score by the stable comparator sort. -/
def mergeTechStacks (analyses : List PlatformAnalysis) : TechStack :=
  { languages := sortByScore (accumField (fun a => a.techStack.languages) analyses)
    frameworks := sortByScore (accumField (fun a => a.techStack.frameworks) analyses)
    tools := sortByScore (accumField (fun a => a.techStack.tools) analyses)
    topics := accumStringSet (fun a => a.techStack.topics) analyses }

/-- The style label returned when nothing can be analyzed. -/
def insufficientInfoLabel : String := "情報不足のため分析できません"

/-- The fixed keyword categories of `summarizeCommunicationStyle`: each
regex `/a|b|.../i` is the list of its literal alternatives (none of the
alternatives contains cased letters, so the `i` flag is inert), paired
with the category label. -/
def keywordPatterns : List (List String × String) :=
  [ (["技術", "詳細", "解説", "コード", "実装"], "技術的")
  , (["教育", "共有", "チュートリアル", "学習"], "教育的")
  , (["リーダー", "マネジメント", "戦略", "ビジョン"], "リーダーシップ")
  , (["チーム", "協力", "協調", "協働"], "協調的")
  , (["個人", "一人", "ソロ"], "個人的")
  , (["簡潔", "シンプル"], "簡潔")
  , (["詳細", "丁寧", "深い"], "詳細")
  , (["バランス"], "バランス")
  , (["影響力", "発信"], "発信力") ]

/-- Substring containment on character lists: the needle occurs
contiguously somewhere in the haystack. -/
def infixMatch (needle : List Char) : List Char → Bool
  | [] => needle.isPrefixOf []
  | c :: rest => needle.isPrefixOf (c :: rest) || infixMatch needle rest

/-- `pattern.test(style)` for an alternation of literals: some
alternative occurs as a substring. -/
def patternTest (alts : List String) (s : String) : Bool :=
  alts.any (fun a => infixMatch a.toList s.toList)

/-- The keyword tally of `summarizeCommunicationStyle`: for each style
string, every matching category's counter is incremented. -/
def categoryCounts (styles : List String) : List (String × Int) :=
  styles.foldl (fun m s =>
    keywordPatterns.foldl (fun m' pk =>
      if patternTest pk.1 s then bump m' (pk.2, 1) else m') m) []

/-- Suffix of the composed communication-style labels. -/
def styleSuffix : String := "なコミュニケーションスタイル"

/-- `PersonAnalyzer.summarizeCommunicationStyle`. -/
def summarizeCommunicationStyle (styles : List String) : String :=
  if styles.length = 0 then insufficientInfoLabel
  else if styles.length = 1 then styles.headD ""
  else
    let sortedKeywords := (sortByScore (categoryCounts styles)).map Prod.fst
    match sortedKeywords with
    | [] => styles.headD ""
    | [k] => k ++ styleSuffix
    | k1 :: k2 :: _ => k1 ++ "かつ" ++ k2 ++ styleSuffix

/-- The style strings collected by `mergePersonalities`
(`analysis.personality.communication?.style` when truthy — `""` is
falsy and is skipped). -/
def collectedStyles (analyses : List PlatformAnalysis) : List String :=
  analyses.foldl (fun st a =>
    match a.personality.communication with
    | some c =>
      match c.style with
      | some s => if s.isEmpty then st else st ++ [s]
      | none => st
    | none => st) []

/-- The frequency accumulator of `mergePersonalities`
(`if (communication?.frequency) communicationFrequency += frequency` —
`0` is falsy and contributes nothing either way). -/
def freqSum (analyses : List PlatformAnalysis) : ℚ :=
  analyses.foldl (fun acc a =>
    match a.personality.communication with
    | some c =>
      match c.frequency with
      | some f => if f = 0 then acc else acc + f
      | none => acc
    | none => acc) 0

/-- The work-style labels collected by `mergePersonalities`
(`if (analysis.personality.workStyle)` — `""` is falsy and skipped). -/
def collectedWorkStyles (analyses : List PlatformAnalysis) : List String :=
  analyses.foldl (fun ws a =>
    match a.personality.workStyle with
    | some w => if w.isEmpty then ws else ws ++ [w]
    | none => ws) []

/-- The `workStyleCounts` record: occurrences per label. -/
def countsOfLabels (ls : List String) : List (String × Int) :=
  ls.foldl (fun m w => bump m (w, 1)) []

/-- `PersonAnalyzer.mergePersonalities`. -/
def mergePersonalities (analyses : List PlatformAnalysis) : Personality :=
  let avgFreq : ℚ :=
    if 0 < analyses.length then freqSum analyses / (analyses.length : ℚ) else 0
  let dominantWorkStyle : Option String :=
    match ((sortByScore (countsOfLabels (collectedWorkStyles analyses))).map Prod.fst).head? with
    | some s => if s.isEmpty then none else some s
    | none => none
  { interests := accumStringSet (fun a => a.personality.interests) analyses
    activities := accumStringSet (fun a => a.personality.activities) analyses
    communication :=
      { style := some (summarizeCommunicationStyle (collectedStyles analyses))
        frequency := some avgFreq
        topics := some (accumStringSet
          (fun a => (a.personality.communication).bind (fun c => c.topics)) analyses) }
    workStyle := dominantWorkStyle }

/-- Localized platform display names used by `generateSummary`. -/
def platformDisplayName : Platform → String
  | .github => "GitHub"
  | .twitter => "Twitter/X"
  | .speakerdeck => "SpeakerDeck"
  | .blog => "ブログ"

/-- One conditional bullet line of the summary template. -/
def bulletLine (label : String) (items : List String) : String :=
  if items.isEmpty then "" else label ++ String.intercalate "、" items ++ "\n"

/-- The communication-style line (`if (personality.communication?.style)`). -/
def styleLine (p : Personality) : String :=
  match p.communication.style with
  | some s => if s.isEmpty then "" else "・コミュニケーションスタイル: " ++ s ++ "\n"
  | none => ""

/-- The work-style line (`if (personality.workStyle)`). -/
def workStyleLine (p : Personality) : String :=
  match p.workStyle with
  | some s => if s.isEmpty then "" else "・仕事のスタイル: " ++ s ++ "\n"
  | none => ""

/-- The first three non-blank activities, one bullet line each. -/
def activityLines (acts : List String) : String :=
  (acts.take 3).foldl (fun s act =>
    if (trimStr act).isEmpty then s else s ++ "・" ++ act ++ "\n") ""

/-- The activities section, emitted only when activities exist. -/
def activitySection (acts : List String) : String :=
  if acts.isEmpty then "" else "\n【活動内容】\n" ++ activityLines acts

/-- `PersonAnalyzer.generateSummary`: the deterministic text template. -/
def generateSummary (analyses : List PlatformAnalysis)
    (techStack : TechStack) (personality : Personality) : String :=
  let platforms :=
    String.intercalate "、" (analyses.map (fun a => platformDisplayName a.platform))
  platforms ++ "の分析結果に基づく要約：\n\n"
    ++ "【技術スタック】\n"
    ++ bulletLine "・主な使用言語: " ((keysOf techStack.languages).take 3)
    ++ bulletLine "・主なフレームワーク: " ((keysOf techStack.frameworks).take 3)
    ++ bulletLine "・主なツール: " ((keysOf techStack.tools).take 3)
    ++ "\n【人となり】\n"
    ++ bulletLine "・興味・関心: " (personality.interests.take 5)
    ++ styleLine personality
    ++ workStyleLine personality
    ++ activitySection personality.activities

/-- The four per-platform extractors seen from the orchestrator: total
functions from a URL to either a `PlatformAnalysis` or a thrown error. -/
structure Extractors where
  github : String → Except String PlatformAnalysis
  twitter : String → Except String PlatformAnalysis
  speakerdeck : String → Except String PlatformAnalysis
  blog : String → Except String PlatformAnalysis

/-- One guarded extraction slot of `PersonAnalyzer.analyze`: run the
extractor when the URL field is truthy, appending on success and
swallowing (logging only) a thrown failure. -/
def tryPlatform (acc : List PlatformAnalysis) (urlField : Option String)
    (extract : String → Except String PlatformAnalysis) : List PlatformAnalysis :=
  match urlField with
  | some u =>
    if u.isEmpty then acc
    else
      match extract u with
      | .ok a => acc ++ [a]
      | .error _ => acc
  | none => acc

/-- `PersonAnalyzer.analyze`.  The outer `try`/`catch` of the source can
only rethrow an exception raised after the four per-platform catches;
the merge and summary steps are pure total computations, so the function
always reaches the final `.ok`. -/
def analyze (ex : Extractors) (req : AnalysisRequest) : Except String AnalysisResult :=
  let l1 := tryPlatform [] req.github ex.github
  let l2 := tryPlatform l1 req.twitter ex.twitter
  let l3 := tryPlatform l2 req.speakerdeck ex.speakerdeck
  let platformAnalyses := tryPlatform l3 req.blog ex.blog
  let techStack := mergeTechStacks platformAnalyses
  let personality := mergePersonalities platformAnalyses
  let summary := generateSummary platformAnalyses techStack personality
  .ok { platforms := platformAnalyses
        techStack := techStack
        personality := personality
        summary := summary }

/-! ### Tool-call request validation (`index.ts`) -/

/-- JavaScript truthiness of an optional string field (`""` is falsy). -/
def present (o : Option String) : Bool :=
  match o with
  | some s => !s.isEmpty
  | none => false

/-- Strip an exact literal from the front of a character list. -/
def stripLit (lit : String) (cs : List Char) : Option (List Char) :=
  if lit.toList.isPrefixOf cs then some (cs.drop lit.toList.length) else none

/-- `[^\/]+\/?$`: a non-empty run of non-slash characters, optionally
followed by one final slash. -/
def userSegment (cs : List Char) : Bool :=
  if cs.isEmpty then false
  else
    cs.all (fun c => !(c == '/')) ||
      (cs.getLast? == some '/' && !cs.dropLast.isEmpty
        && cs.dropLast.all (fun c => !(c == '/')))

/-- `^https?:\/\/`: the two scheme alternatives are mutually exclusive
on any input, so trying them in order loses no match. -/
def afterScheme (cs : List Char) : Option (List Char) :=
  match stripLit "https://" cs with
  | some r => some r
  | none => stripLit "http://" cs

/-- `(www\.)?`: the greedy branch never needs backtracking, since the
hosts that must follow do not start with `www.`. -/
def afterOptWww (cs : List Char) : List Char :=
  match stripLit "www." cs with
  | some r => r
  | none => cs

/-- A host literal (including its trailing slash) followed by a
username segment. -/
def hostAndUser (host : String) (cs : List Char) : Bool :=
  match stripLit host cs with
  | some r => userSegment r
  | none => false

/-- `/^https?:\/\/(www\.)?github\.com\/[^\/]+\/?$/`. -/
def githubUrlValid (s : String) : Bool :=
  match afterScheme s.toList with
  | some r => hostAndUser "github.com/" (afterOptWww r)
  | none => false

/-- `/^https?:\/\/(www\.)?(twitter|x)\.com\/[^\/]+\/?$/` (the two host
alternatives are mutually exclusive at any position). -/
def twitterUrlValid (s : String) : Bool :=
  match afterScheme s.toList with
  | some r =>
    hostAndUser "twitter.com/" (afterOptWww r) || hostAndUser "x.com/" (afterOptWww r)
  | none => false

/-- `/^https?:\/\/(www\.)?speakerdeck\.com\/[^\/]+\/?$/`. -/
def speakerdeckUrlValid (s : String) : Bool :=
  match afterScheme s.toList with
  | some r => hostAndUser "speakerdeck.com/" (afterOptWww r)
  | none => false

/-- The invalid-parameters errors the `how-person` tool handler can
throw before dispatching to the analyzer. -/
inductive ValidationError
  | missingUrl
  | invalidGithubUrl
  | invalidTwitterUrl
  | invalidSpeakerdeckUrl
deriving DecidableEq, Repr

/-- The synchronous validation phase of the `CallToolRequestSchema`
handler: `none` means the request proceeds to the analyzer (possibly
via the cache); `some e` means an `InvalidParams` `McpError` is thrown
before any extractor runs.  The handler checks the three
platform-specific URL shapes; the `blog` field has no shape check. -/
def validateRequest (args : AnalysisRequest) : Option ValidationError :=
  if !(present args.github || present args.twitter
      || present args.speakerdeck || present args.blog) then
    some .missingUrl
  else if present args.github && !githubUrlValid (args.github.getD "") then
    some .invalidGithubUrl
  else if present args.twitter && !twitterUrlValid (args.twitter.getD "") then
    some .invalidTwitterUrl
  else if present args.speakerdeck && !speakerdeckUrlValid (args.speakerdeck.getD "") then
    some .invalidSpeakerdeckUrl
  else
    none

/-- Modelled from the spec: the blog extractor derives the domain "via
standard URL parsing" (the `new URL` constructor of the host platform,
which is external to the repository) and fails with `Invalid Blog URL`
when parsing fails.  A WHATWG URL must begin with a scheme — an ASCII
letter followed by letters, digits, `+`, `-` or `.` — terminated by a
colon; only this necessary scheme condition is modelled, which suffices
to classify strings containing no colon at all as unparsable. -/
def urlHasScheme (s : String) : Bool :=
  match s.toList with
  | [] => false
  | c :: rest =>
    c.isAlpha &&
      (((c :: rest).drop
          ((c :: rest).takeWhile
            (fun d => d.isAlpha || d.isDigit || d == '+' || d == '-' || d == '.')).length).head?
        == some ':')

/-! ### Microblog extractor (`TwitterService`) -/

/-- Structured entities attached to a tweet. -/
structure TweetEntities where
  hashtags : List String := []
  mentions : List String := []
deriving DecidableEq, Repr

/-- One tweet of the user timeline.  `created_at` is the post timestamp
in epoch milliseconds (`new Date(...).getTime()`); `referenced_tweets`
is the list of reference-type tags. -/
structure Tweet where
  text : Option String := none
  entities : Option TweetEntities := none
  created_at : Option ℚ := none
  referenced_tweets : Option (List String) := none
deriving DecidableEq, Repr

/-- The `userData.data` payload fields the service reads. -/
structure TwitterUserData where
  description : Option String := none
  followers_count : Option Int := none
deriving DecidableEq, Repr

/-- The technology keyword list of `TwitterService`. -/
def twitterTechKeywords : List String :=
  [ "javascript", "typescript", "python", "java", "ruby", "go", "rust", "c#", "php"
  , "react", "vue", "angular", "svelte", "node", "deno", "rails", "django", "laravel"
  , "aws", "azure", "gcp", "cloud", "docker", "kubernetes", "devops", "cicd"
  , "ai", "ml", "machinelearning", "deeplearning", "data", "analytics"
  , "web", "mobile", "frontend", "backend", "fullstack", "database", "sql", "nosql"
  , "security", "blockchain", "crypto", "iot", "ar", "vr" ]

/-- The fixed list of well-known technical accounts. -/
def techAccounts : List String := ["github", "stackoverflow", "nodejs", "reactjs"]

/-- `TwitterService.extractTopicsFromTweets`: tweets without truthy
text (`if (!tweet.text) continue` — absent or empty string) are skipped
entirely, their entities never read; keyword substring scan over the
lower-cased text, hashtags kept when they contain a tech keyword,
mentions of well-known technical accounts kept lower-cased. -/
def extractTopicsFromTweets (tweets : List Tweet) : List String :=
  tweets.foldl (fun topics t =>
    match t.text with
    | none => topics
    | some txt =>
      if txt.isEmpty then topics
      else
      let text := txt.toLower
      let topics := twitterTechKeywords.foldl (fun ts kw =>
        if infixMatch kw.toList text.toList then addTopic ts kw else ts) topics
      match t.entities with
      | some ents =>
        let topics := ents.hashtags.foldl (fun ts tag =>
          let hashtag := tag.toLower
          if twitterTechKeywords.any (fun kw => infixMatch kw.toList hashtag.toList)
          then addTopic ts hashtag else ts) topics
        ents.mentions.foldl (fun ts mention =>
          if techAccounts.any (fun acc => infixMatch acc.toList mention.toLower.toList)
          then addTopic ts mention.toLower else ts) topics
      | none => topics) []

/-- `TwitterService.extractHashtags`: every hashtag, lower-cased,
unfiltered. -/
def extractHashtags (tweets : List Tweet) : List String :=
  tweets.foldl (fun hs t =>
    match t.entities with
    | some ents => ents.hashtags.foldl (fun hs' tag => addTopic hs' tag.toLower) hs
    | none => hs) []

/-- `TwitterService.analyzeCommStyle`. -/
def twitterAnalyzeCommStyle (userData : Option TwitterUserData) (tweets : List Tweet) : String :=
  if userData.isNone || tweets.isEmpty then insufficientInfoLabel
  else
    let followers : Int :=
      match userData with
      | some u => u.followers_count.getD 0
      | none => 0
    let retweetCount :=
      (tweets.filter (fun t =>
        match t.text with
        | some s => "RT @".toList.isPrefixOf s.toList
        | none => false)).length
    let retweetRatio : ℚ :=
      if 0 < tweets.length then (retweetCount : ℚ) / (tweets.length : ℚ) else 0
    let replyCount :=
      (tweets.filter (fun t =>
        match t.referenced_tweets with
        | some refs => refs.contains "replied_to"
        | none => false)).length
    let replyRatio : ℚ :=
      if 0 < tweets.length then (replyCount : ℚ) / (tweets.length : ℚ) else 0
    let avgLength : ℚ :=
      (tweets.foldl (fun sum t => sum + ((t.text.getD "").length : ℚ)) 0)
        / (if tweets.length = 0 then (1 : ℚ) else (tweets.length : ℚ))
    if 5000 < followers then "影響力のある発信者"
    else if 7/10 < retweetRatio then "情報共有型"
    else if 1/2 < replyRatio then "対話重視型"
    else if 200 < avgLength then "詳細な説明を好むスタイル"
    else if avgLength < 100 then "簡潔な発信を好むスタイル"
    else "バランスの取れたコミュニケーションスタイル"

/-- `TwitterService.calculateTweetFrequency`: tweets per day over the
observed timestamp span, degenerating to the raw tweet count when fewer
than two timestamps are available or the span is not positive. -/
def calculateTweetFrequency (tweets : List Tweet) : ℚ :=
  if tweets.isEmpty then 0
  else
    let dates := (tweets.filterMap (fun t => t.created_at)).mergeSort
      (fun a b => decide (a ≤ b))
    if dates.length < 2 then (tweets.length : ℚ)
    else
      let oldest := dates.headD 0
      let newest := dates.getLastD 0
      let daysDiff := (newest - oldest) / (1000 * 60 * 60 * 24)
      if 0 < daysDiff then (tweets.length : ℚ) / daysDiff else (tweets.length : ℚ)

/-- The username-capturing search of `/(?:twitter|x)\.com\/([^\/\?]+)/`:
scan left to right; at each position try the two host literals (their
first characters differ, so at most one can apply), then capture the
maximal non-empty run of characters other than `/` and `?`; when the
run is empty the whole attempt at this position fails and the scan
advances. -/
def grabUserSeg (cs : List Char) : Option (List Char) :=
  let seg := cs.takeWhile (fun c => !(c == '/') && !(c == '?'))
  if seg.isEmpty then none else some seg

/-- Left-to-right regex search for the Twitter/X username capture. -/
def twitterUserSearch : List Char → Option String
  | [] => none
  | c :: rest =>
    match stripLit "twitter.com/" (c :: rest) with
    | some r =>
      match grabUserSeg r with
      | some seg => some (String.mk seg)
      | none => twitterUserSearch rest
    | none =>
      match stripLit "x.com/" (c :: rest) with
      | some r =>
        match grabUserSeg r with
        | some seg => some (String.mk seg)
        | none => twitterUserSearch rest
      | none => twitterUserSearch rest

/-- `TwitterService.extractUsername` (`none` embeds the thrown
`Invalid Twitter/X URL`). -/
def extractTwitterUsername (url : String) : Option String :=
  twitterUserSearch url.toList

/-- `TwitterService.analyze`.  `fetched = none` embeds the run with no
API client configured (no credential): the service skips all API calls
and proceeds with `userData = null`, `tweets = []`.  `fetched = some`
embeds a successful API fetch of the user payload and timeline. -/
def twitterAnalyze (fetched : Option (TwitterUserData × List Tweet))
    (url : String) : Except String PlatformAnalysis :=
  match extractTwitterUsername url with
  | none => .error "Invalid Twitter/X URL"
  | some _ =>
    let userData : Option TwitterUserData := fetched.map (fun f => f.1)
    let tweets : List Tweet :=
      match fetched with
      | some f => f.2
      | none => []
    let topics := extractTopicsFromTweets tweets
    let hashtags := extractHashtags tweets
    .ok { platform := .twitter
          url := url
          techStack := { topics := some topics }
          personality :=
            { interests := some (hashtags.take 10)
              activities := some
                (match userData with
                 | some u =>
                   match u.description with
                   | some d => if d.isEmpty then [] else [d]
                   | none => []
                 | none => [])
              communication := some
                { style := some (twitterAnalyzeCommStyle userData tweets)
                  frequency := some (calculateTweetFrequency tweets)
                  topics := some (topics.take 5) } } }

/-! ### Code-host extractor communication style (`GitHubService`) -/

/-- The repository fields read by `GitHubService.analyzeCommStyle`. -/
structure GitHubRepo where
  fork : Bool := false
  description : Option String := none
  contributors_url : Option String := none
  stargazers_count : Int := 0
deriving DecidableEq, Repr

/-- `GitHubService.analyzeCommStyle` (the unused `user` parameter of the
source is dropped).  Truthiness guards on the optional strings are
embedded: `r.description && r.description.length > 100` and
`r.contributors_url && r.contributors_url.length > 1`. -/
def githubAnalyzeCommStyle (repos : List GitHubRepo) : String :=
  let hasDetailedReadmes := repos.any (fun r =>
    match r.description with
    | some d => !d.isEmpty && decide (100 < d.length)
    | none => false)
  let hasMultipleContributors := repos.any (fun r =>
    match r.contributors_url with
    | some u => !u.isEmpty && decide (1 < u.length)
    | none => false)
  let hasManyStars := repos.any (fun r => decide (50 < r.stargazers_count))
  if hasManyStars && hasDetailedReadmes then
    "オープンで詳細なドキュメントを重視するスタイル"
  else if hasMultipleContributors then
    "協調的なスタイル"
  else if 20 < repos.length then
    "多くのプロジェクトに取り組む探究心旺盛なスタイル"
  else
    "個人的な開発に集中するスタイル"

/-! ### Blog extractor article discovery (`BlogService.analyze`) -/

/-- One candidate element returned by a structural selector: the text
of its first `h1`–`h3` heading, the `href` of its first anchor, its
full text, and its date markup (`<time datetime>` attribute and the
textual date selectors). -/
structure BlogElement where
  heading : String := ""
  href : Option String := none
  text : String := ""
  datetime : Option String := none
  dateText : String := ""
deriving DecidableEq, Repr

/-- One in-page anchor: its `href` attribute and its (trimmed) text. -/
structure BlogLink where
  href : Option String := none
  text : String := ""
deriving DecidableEq, Repr

/-- The parsed page as the discovery loop sees it: the element list each
selector matches, and the page's anchors. -/
structure BlogDoc where
  hits : String → List BlogElement
  links : List BlogLink

/-- A discovered article. -/
structure BlogArticle where
  title : String
  url : String
  content : String
  date : Option String := none
deriving DecidableEq, Repr

/-- The fixed, ordered structural selector list. -/
def articleSelectors : List String :=
  [ "article", ".post", ".entry", ".blog-post", ".blog-entry"
  , ".post-content", ".entry-content", ".article-content" ]

/-- `find('time').attr('datetime') || find('.date, ...').text().trim()`. -/
def articleDateOf (e : BlogElement) : String :=
  match e.datetime with
  | some d => if d.isEmpty then (trimStr e.dateText) else d
  | none => (trimStr e.dateText)

/-- The keep condition: non-empty trimmed heading and non-empty trimmed
text (`if (articleTitle && articleContent)`). -/
def goodElement (e : BlogElement) : Bool :=
  !(trimStr e.heading).isEmpty && !(trimStr e.text).isEmpty

/-- Build the article pushed for a kept element; `resolve` is the
URL-resolution collaborator (`normalizeUrl`, backed by the host
platform's URL parser). -/
def mkArticle (resolve : String → String → String) (pageUrl : String)
    (e : BlogElement) : BlogArticle :=
  { title := (trimStr e.heading)
    url := resolve (e.href.getD "") pageUrl
    content := (trimStr e.text)
    date := some (articleDateOf e) }

/-- The per-selector `each` loop: push every qualifying element. -/
def qualifyHits (resolve : String → String → String) (pageUrl : String)
    (els : List BlogElement) : List BlogArticle :=
  els.foldl (fun acc e =>
    if goodElement e then acc ++ [mkArticle resolve pageUrl e] else acc) []

/-- The selector loop with its early exit: the first selector whose
qualifying articles are non-empty wins; later selectors are not tried. -/
def firstStructural (resolve : String → String → String) (pageUrl : String)
    (doc : BlogDoc) : List String → List BlogArticle
  | [] => []
  | s :: rest =>
    let arts := qualifyHits resolve pageUrl (doc.hits s)
    if arts.isEmpty then firstStructural resolve pageUrl doc rest else arts

/-- The fallback link heuristic's keep condition:
`href && text && href.includes('/') && text.length > 20 && !href.startsWith('http')`. -/
def isArticleLikeLink (l : BlogLink) : Bool :=
  match l.href with
  | some href =>
    !href.isEmpty && !(trimStr l.text).isEmpty && href.toList.contains '/'
      && decide (20 < (trimStr l.text).length) && !("http".toList.isPrefixOf href.toList)
  | none => false

/-- The fallback loop over every in-page anchor. -/
def fallbackArticles (resolve : String → String → String) (pageUrl : String)
    (links : List BlogLink) : List BlogArticle :=
  links.foldl (fun acc l =>
    if isArticleLikeLink l then
      acc ++ [{ title := (trimStr l.text)
                url := resolve (l.href.getD "") pageUrl
                content := (trimStr l.text) }]
    else acc) []

/-- The article-discovery phase of `BlogService.analyze`: structural
selectors first, the link heuristic only when none of them yielded an
article. -/
def discoverArticles (resolve : String → String → String) (pageUrl : String)
    (doc : BlogDoc) : List BlogArticle :=
  let structural := firstStructural resolve pageUrl doc articleSelectors
  if structural.isEmpty then fallbackArticles resolve pageUrl doc.links
  else structural

/-! ### Claim-facing auxiliary definitions -/

/-- The frequency a platform analysis contributes to the merged mean:
its reported frequency when present and non-zero, `0` otherwise. -/
def reportedFreq (a : PlatformAnalysis) : ℚ :=
  match a.personality.communication with
  | some c =>
    match c.frequency with
    | some f => if f = 0 then 0 else f
    | none => 0
  | none => 0

/-- What one platform slot contributes to the collected analyses:
one element on success, nothing when the URL field is absent/empty or
the extractor throws. -/
def slotOutcome (urlField : Option String)
    (extract : String → Except String PlatformAnalysis) : List PlatformAnalysis :=
  match urlField with
  | some u =>
    if u.isEmpty then []
    else
      match extract u with
      | .ok a => [a]
      | .error _ => []
  | none => []

/-- The entry list a platform analysis carries for one tally field. -/
def fieldEntries (get : PlatformAnalysis → Option (List (String × Int)))
    (a : PlatformAnalysis) : List (String × Int) :=
  (get a).getD []

/-- The sum, over all platform analyses, of the scores they report for
one key in one tally field. -/
def fieldTotal (get : PlatformAnalysis → Option (List (String × Int)))
    (analyses : List PlatformAnalysis) (k : String) : Int :=
  (analyses.map (fun a => entrySum (fieldEntries get a) k)).sum

/-- How many of the style strings one keyword category matches. -/
def categoryMatchCount (styles : List String) (alts : List String) : Int :=
  ((styles.filter (fun s => patternTest alts s)).length : Int)

/-- The unit tally entries one style string contributes: one per
keyword category that matches it. -/
def styleCategoryEntries (s : String) : List (String × Int) :=
  (keywordPatterns.filter (fun pk => patternTest pk.1 s)).map (fun pk => (pk.2, (1 : Int)))

/-- All keys one tally field contributes across the platform analyses,
in accumulation order (per platform, then per entry). -/
def fieldKeyOccurrences (get : PlatformAnalysis → Option (List (String × Int)))
    (analyses : List PlatformAnalysis) : List String :=
  analyses.flatMap (fun a => keysOf (fieldEntries get a))

/-! ## Lemma development -/

/-! ### Basic record lemmas -/

@[simp] theorem keysOf_nil : keysOf [] = [] := rfl

@[simp] theorem keysOf_cons (p : String × Int) (rest : List (String × Int)) :
    keysOf (p :: rest) = p.1 :: keysOf rest := rfl

@[simp] theorem scoreIn_nil (k : String) : scoreIn [] k = 0 := rfl

@[simp] theorem scoreIn_cons (p : String × Int) (rest : List (String × Int)) (k : String) :
    scoreIn (p :: rest) k = if p.1 = k then p.2 else scoreIn rest k := rfl

@[simp] theorem entrySum_nil (k : String) : entrySum [] k = 0 := rfl

@[simp] theorem entrySum_cons (e : String × Int) (rest : List (String × Int)) (k : String) :
    entrySum (e :: rest) k = (if e.1 = k then e.2 else 0) + entrySum rest k := rfl

theorem scoreIn_eq_zero_of_not_mem {m : List (String × Int)} {k : String}
    (h : k ∉ keysOf m) : scoreIn m k = 0 := by
  induction m with
  | nil => rfl
  | cons p rest ih =>
    simp only [keysOf_cons, List.mem_cons, not_or] at h
    have h1 : ¬ p.1 = k := fun hpk => h.1 hpk.symm
    simp [h1, ih h.2]

theorem keysOf_append (m n : List (String × Int)) :
    keysOf (m ++ n) = keysOf m ++ keysOf n := by
  simp [keysOf]

theorem scoreIn_append (m n : List (String × Int)) (k : String) :
    scoreIn (m ++ n) k = if k ∈ keysOf m then scoreIn m k else scoreIn n k := by
  induction m with
  | nil => simp
  | cons p rest ih =>
    by_cases hp : p.1 = k
    · simp [hp]
    · have hne : ¬ k = p.1 := fun h => hp h.symm
      simp [hp, hne, ih]

theorem keysOf_bump (m : List (String × Int)) (e : String × Int) :
    keysOf (bump m e) = addTopic (keysOf m) e.1 := by
  unfold bump addTopic
  by_cases h : e.1 ∈ keysOf m
  · rw [if_pos h, if_pos h]
    show List.map Prod.fst _ = List.map Prod.fst m
    rw [List.map_map]
    refine List.map_congr_left (fun p _ => ?_)
    by_cases hp : p.1 = e.1 <;> simp [hp]
  · rw [if_neg h, if_neg h]
    exact keysOf_append m [e]

theorem mem_keysOf_bump {m : List (String × Int)} {e : String × Int} {k : String} :
    k ∈ keysOf (bump m e) ↔ k ∈ keysOf m ∨ k = e.1 := by
  rw [keysOf_bump]
  unfold addTopic
  by_cases h : e.1 ∈ keysOf m
  · rw [if_pos h]
    constructor
    · exact Or.inl
    · rintro (hk | rfl) <;> [exact hk; exact h]
  · rw [if_neg h]; simp

theorem scoreIn_map_bump (m : List (String × Int)) (e : String × Int) (k : String) :
    scoreIn (m.map (fun p => if p.1 = e.1 then (p.1, p.2 + e.2) else p)) k
      = scoreIn m k + (if k = e.1 ∧ k ∈ keysOf m then e.2 else 0) := by
  induction m with
  | nil => simp
  | cons p rest ih =>
    have hfst : (if p.1 = e.1 then (p.1, p.2 + e.2) else p).1 = p.1 := by
      by_cases hpe : p.1 = e.1 <;> simp [hpe]
    rw [List.map_cons, scoreIn_cons, hfst, scoreIn_cons]
    by_cases hpk : p.1 = k
    · rw [if_pos hpk, if_pos hpk]
      by_cases hpe : p.1 = e.1
      · rw [if_pos hpe]
        have hc : k = e.1 ∧ k ∈ keysOf (p :: rest) := ⟨hpk ▸ hpe, by simp [← hpk]⟩
        rw [if_pos hc]
      · rw [if_neg hpe]
        have hc : ¬ (k = e.1 ∧ k ∈ keysOf (p :: rest)) := fun hc => hpe (hpk ▸ hc.1)
        rw [if_neg hc]
        simp
    · rw [if_neg hpk, if_neg hpk, ih]
      have hkp : ¬ k = p.1 := fun h => hpk h.symm
      have hmem : (k ∈ keysOf (p :: rest)) ↔ (k ∈ keysOf rest) := by
        rw [keysOf_cons, List.mem_cons]
        exact or_iff_right hkp
      congr 1
      simp only [hmem]

theorem scoreIn_bump (m : List (String × Int)) (e : String × Int) (k : String) :
    scoreIn (bump m e) k = scoreIn m k + (if k = e.1 then e.2 else 0) := by
  unfold bump
  by_cases h : e.1 ∈ keysOf m
  · rw [if_pos h, scoreIn_map_bump]
    by_cases hk : k = e.1
    · simp [hk, h]
    · simp [hk]
  · rw [if_neg h, scoreIn_append]
    by_cases hk : k ∈ keysOf m
    · have hke : ¬ k = e.1 := fun he => h (he ▸ hk)
      simp [hk, hke]
    · rw [if_neg hk, scoreIn_eq_zero_of_not_mem hk]
      by_cases hke : k = e.1
      · simp [hke]
      · have hek : ¬ e.1 = k := fun h' => hke h'.symm
        simp [hke, hek]

theorem nodup_keysOf_bump {m : List (String × Int)} {e : String × Int}
    (h : (keysOf m).Nodup) : (keysOf (bump m e)).Nodup := by
  rw [keysOf_bump]
  unfold addTopic
  by_cases hmem : e.1 ∈ keysOf m
  · simpa [hmem] using h
  · rw [if_neg hmem]
    apply List.Nodup.append h (List.nodup_singleton e.1)
    intro x hx hx'
    rw [List.mem_singleton] at hx'
    exact hmem (hx' ▸ hx)

theorem scoreIn_accumInto (l : List (String × Int)) :
    ∀ (m : List (String × Int)) (k : String),
    scoreIn (accumInto m l) k = scoreIn m k + entrySum l k := by
  induction l with
  | nil => intro m k; simp [accumInto]
  | cons e rest ih =>
    intro m k
    have h1 : accumInto m (e :: rest) = accumInto (bump m e) rest := rfl
    have h2 : (if e.1 = k then e.2 else 0) = (if k = e.1 then e.2 else 0) := by
      by_cases hk : k = e.1
      · simp [hk]
      · have hek : ¬ e.1 = k := fun h => hk h.symm
        simp [hk, hek]
    rw [h1, ih, scoreIn_bump, entrySum_cons, h2, Int.add_assoc,
      Int.add_comm (if k = e.1 then e.2 else 0) (entrySum rest k)]

theorem keysOf_accumInto (l : List (String × Int)) :
    ∀ m : List (String × Int),
    keysOf (accumInto m l) = (keysOf l).foldl addTopic (keysOf m) := by
  induction l with
  | nil => intro m; rfl
  | cons e rest ih =>
    intro m
    have h1 : accumInto m (e :: rest) = accumInto (bump m e) rest := rfl
    rw [h1, ih, keysOf_bump, keysOf_cons, List.foldl_cons]

theorem nodup_keysOf_accumInto (l : List (String × Int)) :
    ∀ m : List (String × Int), (keysOf m).Nodup → (keysOf (accumInto m l)).Nodup := by
  induction l with
  | nil => intro m h; exact h
  | cons e rest ih =>
    intro m h
    exact ih (bump m e) (nodup_keysOf_bump h)

theorem mem_of_scoreIn {m : List (String × Int)} {k : String}
    (h : k ∈ keysOf m) : (k, scoreIn m k) ∈ m := by
  induction m with
  | nil => simp at h
  | cons p rest ih =>
    by_cases hp : p.1 = k
    · rw [scoreIn_cons, if_pos hp, ← hp]
      exact List.mem_cons_self _ _
    · have hk : k ∈ keysOf rest := by
        have := List.mem_cons.mp (keysOf_cons p rest ▸ h)
        rcases this with h1 | h1
        · exact absurd h1.symm hp
        · exact h1
      simp only [scoreIn_cons, if_neg hp]
      exact List.mem_cons_of_mem _ (ih hk)

theorem scoreIn_of_mem_nodup {m : List (String × Int)} {k : String} {v : Int}
    (hnd : (keysOf m).Nodup) (h : (k, v) ∈ m) : v = scoreIn m k := by
  induction m with
  | nil => simp at h
  | cons p rest ih =>
    rcases List.mem_cons.mp h with h1 | h1
    · rw [← h1]; simp
    · have hk : k ∈ keysOf rest := List.mem_map_of_mem Prod.fst h1
      have hnd' := List.nodup_cons.mp (keysOf_cons p rest ▸ hnd)
      have hp : ¬ p.1 = k := fun hpk => hnd'.1 (hpk ▸ hk)
      simp only [scoreIn_cons, if_neg hp]
      exact ih hnd'.2 h1

theorem mem_record_iff {m : List (String × Int)} {k : String} {v : Int}
    (hnd : (keysOf m).Nodup) : (k, v) ∈ m ↔ k ∈ keysOf m ∧ v = scoreIn m k := by
  constructor
  · intro h
    exact ⟨List.mem_map_of_mem Prod.fst h, scoreIn_of_mem_nodup hnd h⟩
  · rintro ⟨h1, rfl⟩
    exact mem_of_scoreIn h1

/-! ### Stable sort lemmas -/

theorem scoreLE_trans : ∀ a b c : String × Int, scoreLE a b → scoreLE b c → scoreLE a c := by
  intro a b c hab hbc
  simp only [scoreLE, decide_eq_true_eq] at *
  omega

theorem scoreLE_total : ∀ a b : String × Int, scoreLE a b || scoreLE b a := by
  intro a b
  simp only [scoreLE, Bool.or_eq_true, decide_eq_true_eq]
  omega

theorem sortByScore_perm (l : List (String × Int)) : List.Perm (sortByScore l) l :=
  List.mergeSort_perm l scoreLE

theorem sorted_sortByScore (l : List (String × Int)) :
    (sortByScore l).Pairwise (fun a b => b.2 ≤ a.2) := by
  have h : (sortByScore l).Pairwise (fun a b => scoreLE a b = true) :=
    List.sorted_mergeSort scoreLE_trans scoreLE_total l
  exact h.imp (fun hab => by simpa [scoreLE] using hab)

theorem filter_sortByScore (p : String × Int → Bool) (l : List (String × Int))
    (hp : ∀ a b, p a = true → p b = true → b.2 ≤ a.2) :
    (sortByScore l).filter p = l.filter p := by
  have hpair : (l.filter p).Pairwise (fun a b => scoreLE a b = true) := by
    apply List.pairwise_of_forall_mem_list
    intro a ha b hb
    have hpa := List.of_mem_filter ha
    have hpb := List.of_mem_filter hb
    simpa [scoreLE] using hp a b hpa hpb
  have hsub : List.Sublist (l.filter p) (sortByScore l) :=
    List.sublist_mergeSort scoreLE_trans scoreLE_total hpair (List.filter_sublist l)
  have hsub2 : List.Sublist ((l.filter p).filter p) ((sortByScore l).filter p) :=
    hsub.filter p
  rw [List.filter_filter] at hsub2
  have hself : l.filter (fun a => p a && p a) = l.filter p := by
    apply List.filter_congr
    intro a _
    exact Bool.and_self (p a)
  rw [hself] at hsub2
  have hlen : ((sortByScore l).filter p).length = (l.filter p).length :=
    ((sortByScore_perm l).filter p).length_eq
  exact (hsub2.eq_of_length hlen.symm).symm

/-! ### Set-insertion (`addTopic`) and first-occurrence dedup lemmas -/

theorem mem_addTopic {acc : List String} {t x : String} :
    x ∈ addTopic acc t ↔ x ∈ acc ∨ x = t := by
  unfold addTopic
  by_cases h : t ∈ acc
  · rw [if_pos h]
    constructor
    · exact Or.inl
    · rintro (hx | rfl) <;> [exact hx; exact h]
  · rw [if_neg h]; simp

theorem nodup_addTopic {acc : List String} (h : acc.Nodup) (t : String) :
    (addTopic acc t).Nodup := by
  unfold addTopic
  by_cases hmem : t ∈ acc
  · rwa [if_pos hmem]
  · rw [if_neg hmem]
    apply List.Nodup.append h (List.nodup_singleton t)
    intro x hx hx'
    rw [List.mem_singleton] at hx'
    exact hmem (hx' ▸ hx)

theorem mem_foldl_addTopic (l : List String) :
    ∀ (acc : List String) (x : String),
    x ∈ l.foldl addTopic acc ↔ x ∈ acc ∨ x ∈ l := by
  induction l with
  | nil => intro acc x; simp
  | cons t rest ih =>
    intro acc x
    rw [List.foldl_cons, ih, mem_addTopic, List.mem_cons]
    tauto

theorem nodup_foldl_addTopic (l : List String) :
    ∀ acc : List String, acc.Nodup → (l.foldl addTopic acc).Nodup := by
  induction l with
  | nil => intro acc h; exact h
  | cons t rest ih =>
    intro acc h
    exact ih (addTopic acc t) (nodup_addTopic h t)

theorem nodup_dedupFirst (l : List String) : (dedupFirst l).Nodup :=
  nodup_foldl_addTopic l [] List.nodup_nil

theorem mem_dedupFirst {l : List String} {x : String} :
    x ∈ dedupFirst l ↔ x ∈ l := by
  rw [dedupFirst, mem_foldl_addTopic]
  simp

theorem find?_foldl_addTopic (p : String → Bool) (l : List String) :
    ∀ acc : List String,
    (l.foldl addTopic acc).find? p = (acc.find? p).or (l.find? p) := by
  induction l with
  | nil => intro acc; simp
  | cons t rest ih =>
    intro acc
    rw [List.foldl_cons, ih]
    unfold addTopic
    by_cases hmem : t ∈ acc
    · rw [if_pos hmem]
      by_cases hpt : p t
      · obtain ⟨y, hy⟩ := Option.isSome_iff_exists.mp
          (List.find?_isSome.mpr ⟨t, hmem, hpt⟩)
        rw [hy]
        rfl
      · rw [List.find?_cons_of_neg _ hpt]
    · rw [if_neg hmem, List.find?_append, Option.or_assoc]
      congr 1
      by_cases hpt : p t
      · rw [List.find?_cons_of_pos _ hpt]
        simp [hpt]
      · rw [List.find?_cons_of_neg _ hpt]
        simp [hpt]

/-- `find?` is the head of the filtered list. -/
theorem find?_eq_head?_filter (p : α → Bool) (l : List α) :
    l.find? p = (l.filter p).head? := by
  induction l with
  | nil => rfl
  | cons a rest ih =>
    by_cases hpa : p a
    · rw [List.find?_cons_of_pos _ hpa, List.filter_cons_of_pos hpa, List.head?_cons]
    · rw [List.find?_cons_of_neg _ hpa, List.filter_cons_of_neg hpa, ih]

/-- `find?` only depends on the predicate's values on the list. -/
theorem find?_congr_mem {p q : α → Bool} {l : List α}
    (h : ∀ x ∈ l, p x = q x) : l.find? p = l.find? q := by
  induction l with
  | nil => rfl
  | cons a rest ih =>
    have ha := h a (List.mem_cons_self a rest)
    have hrest : ∀ x ∈ rest, p x = q x := fun x hx => h x (List.mem_cons_of_mem a hx)
    by_cases hpa : p a
    · rw [List.find?_cons_of_pos _ hpa, List.find?_cons_of_pos _ (ha ▸ hpa)]
    · rw [List.find?_cons_of_neg _ hpa, List.find?_cons_of_neg _ (ha ▸ hpa), ih hrest]

/-! ## Claim theorems -/

/-- C8: for every fetched repository list, the code-host communication
style is classified first-match-wins in this priority order:
"open, documentation-focused" when some repository has more than 50
stars and some repository has a description longer than 100 characters;
otherwise "collaborative" when some repository's contributor reference
(`contributors_url`) passes the source's length test; otherwise
"prolific/exploratory" when the repository count exceeds 20; otherwise
the personal-development default label. -/
theorem github_comm_style_priority (repos : List GitHubRepo) :
    githubAnalyzeCommStyle repos =
      if (∃ r ∈ repos, 50 < r.stargazers_count)
          ∧ (∃ r ∈ repos, 100 < (r.description.getD "").length) then
        "オープンで詳細なドキュメントを重視するスタイル"
      else if ∃ r ∈ repos, 1 < (r.contributors_url.getD "").length then
        "協調的なスタイル"
      else if 20 < repos.length then
        "多くのプロジェクトに取り組む探究心旺盛なスタイル"
      else
        "個人的な開発に集中するスタイル" := by
  have hdesc : (repos.any (fun r =>
      match r.description with
      | some d => !d.isEmpty && decide (100 < d.length)
      | none => false)) = true ↔ ∃ r ∈ repos, 100 < (r.description.getD "").length := by
    rw [List.any_eq_true]
    constructor
    · rintro ⟨r, hr, hcond⟩
      refine ⟨r, hr, ?_⟩
      cases hd : r.description with
      | none => rw [hd] at hcond; simp at hcond
      | some d =>
        rw [hd] at hcond
        simp only [Bool.and_eq_true, decide_eq_true_eq] at hcond
        simpa [hd] using hcond.2
    · rintro ⟨r, hr, hlen⟩
      refine ⟨r, hr, ?_⟩
      cases hd : r.description with
      | none => rw [hd] at hlen; simp at hlen
      | some d =>
        rw [hd] at hlen
        simp only [Option.getD_some] at hlen
        have hne : d.isEmpty = false := by
          cases he : d.isEmpty
          · rfl
          · rw [String.isEmpty_iff] at he
            subst he
            simp at hlen
        simp [hne, hlen]
  have hcontrib : (repos.any (fun r =>
      match r.contributors_url with
      | some u => !u.isEmpty && decide (1 < u.length)
      | none => false)) = true ↔ ∃ r ∈ repos, 1 < (r.contributors_url.getD "").length := by
    rw [List.any_eq_true]
    constructor
    · rintro ⟨r, hr, hcond⟩
      refine ⟨r, hr, ?_⟩
      cases hd : r.contributors_url with
      | none => rw [hd] at hcond; simp at hcond
      | some u =>
        rw [hd] at hcond
        simp only [Bool.and_eq_true, decide_eq_true_eq] at hcond
        simpa [hd] using hcond.2
    · rintro ⟨r, hr, hlen⟩
      refine ⟨r, hr, ?_⟩
      cases hd : r.contributors_url with
      | none => rw [hd] at hlen; simp at hlen
      | some u =>
        rw [hd] at hlen
        simp only [Option.getD_some] at hlen
        have hne : u.isEmpty = false := by
          cases he : u.isEmpty
          · rfl
          · rw [String.isEmpty_iff] at he
            subst he
            simp at hlen
        simp [hne, hlen]
  have hstars : (repos.any (fun r => decide (50 < r.stargazers_count))) = true
      ↔ ∃ r ∈ repos, 50 < r.stargazers_count := by
    simp [List.any_eq_true]
  unfold githubAnalyzeCommStyle
  by_cases h1 : (∃ r ∈ repos, 50 < r.stargazers_count)
      ∧ (∃ r ∈ repos, 100 < (r.description.getD "").length)
  · rw [if_pos h1, if_pos (by rw [Bool.and_eq_true, hstars, hdesc]; exact h1)]
  · rw [if_neg h1, if_neg (by rw [Bool.and_eq_true, hstars, hdesc]; exact h1)]
    by_cases h2 : ∃ r ∈ repos, 1 < (r.contributors_url.getD "").length
    · rw [if_pos h2, if_pos (hcontrib.mpr h2)]
    · rw [if_neg h2, if_neg (fun hc => h2 (hcontrib.mp hc))]

/-- C7: for every microblog profile URL from which a username can be
parsed, the credential-free run of the extractor returns normally with
empty tweet-derived fields — empty topics, empty interests, frequency
0 — and the insufficient-information communication style. -/
theorem twitter_no_credential_graceful (url u : String)
    (h : extractTwitterUsername url = some u) :
    ∃ a, twitterAnalyze none url = Except.ok a
      ∧ a.techStack.topics = some []
      ∧ a.personality.interests = some []
      ∧ a.personality.communication = some
          { style := some insufficientInfoLabel
            frequency := some 0
            topics := some [] } := by
  unfold twitterAnalyze
  rw [h]
  exact ⟨_, rfl, rfl, rfl, rfl⟩

/-- C7 witness: the credential-free analysis of a concrete profile URL. -/
theorem twitter_no_credential_graceful_witness :
    ∃ a, twitterAnalyze none "https://twitter.com/alice" = Except.ok a
      ∧ a.techStack.topics = some []
      ∧ a.personality.interests = some []
      ∧ a.personality.communication = some
          { style := some insufficientInfoLabel
            frequency := some 0
            topics := some [] } :=
  twitter_no_credential_graceful "https://twitter.com/alice" "alice" (by decide)

/-- C3 counterexample: the claim says every present URL field —
including the blog field — is validated against a platform-specific
shape and malformed URLs are rejected synchronously.  But the handler
performs no shape check on the blog field: a request whose only URL is
the unparsable string "not a url" (it has no URL scheme, so standard
URL parsing rejects it) passes validation (`none` = not rejected, the
request proceeds to the analyzer and the URL reaches the blog
extractor). -/
theorem blog_url_not_validated :
    validateRequest { blog := some "not a url" } = none
      ∧ urlHasScheme "not a url" = false := by
  constructor
  · rfl
  · rfl

/-- C3 amended: validation passes exactly when some URL field is
(truthily) present and every present code-host, microblog and
slide-deck URL matches its platform-specific regex; the blog field is
never shape-checked.  Equivalently: the three platform-specific fields
are validated synchronously before any extractor runs, a malformed one
is rejected with an invalid-parameters error, and the blog URL is
passed through unvalidated (its malformedness only surfaces inside the
blog extractor, where the orchestrator catches it). -/
theorem validateRequest_spec (args : AnalysisRequest) :
    validateRequest args = none ↔
      ((present args.github ∨ present args.twitter
          ∨ present args.speakerdeck ∨ present args.blog)
        ∧ (present args.github → githubUrlValid (args.github.getD ""))
        ∧ (present args.twitter → twitterUrlValid (args.twitter.getD ""))
        ∧ (present args.speakerdeck → speakerdeckUrlValid (args.speakerdeck.getD ""))) := by
  unfold validateRequest
  by_cases h0 : (present args.github || present args.twitter
      || present args.speakerdeck || present args.blog) = true
  · rw [if_neg (by simp [h0])]
    by_cases h1 : (present args.github && !githubUrlValid (args.github.getD "")) = true
    · rw [if_pos h1]
      simp only [Bool.and_eq_true, Bool.not_eq_true'] at h1
      constructor
      · intro hc; exact absurd hc (by simp)
      · rintro ⟨-, hg, -, -⟩
        rw [hg h1.1] at h1
        exact absurd h1.2 (by simp)
    · rw [if_neg h1]
      by_cases h2 : (present args.twitter && !twitterUrlValid (args.twitter.getD "")) = true
      · rw [if_pos h2]
        simp only [Bool.and_eq_true, Bool.not_eq_true'] at h2
        constructor
        · intro hc; exact absurd hc (by simp)
        · rintro ⟨-, -, ht, -⟩
          rw [ht h2.1] at h2
          exact absurd h2.2 (by simp)
      · rw [if_neg h2]
        by_cases h3 : (present args.speakerdeck
            && !speakerdeckUrlValid (args.speakerdeck.getD "")) = true
        · rw [if_pos h3]
          simp only [Bool.and_eq_true, Bool.not_eq_true'] at h3
          constructor
          · intro hc; exact absurd hc (by simp)
          · rintro ⟨-, -, -, hs⟩
            rw [hs h3.1] at h3
            exact absurd h3.2 (by simp)
        · rw [if_neg h3]
          simp only [Bool.and_eq_true, Bool.not_eq_true'] at h1 h2 h3
          simp only [Bool.or_eq_true] at h0
          constructor
          · intro _
            refine ⟨by tauto, ?_, ?_, ?_⟩
            · intro hg
              by_contra hbad
              exact h1 ⟨hg, by simpa using hbad⟩
            · intro ht
              by_contra hbad
              exact h2 ⟨ht, by simpa using hbad⟩
            · intro hs
              by_contra hbad
              exact h3 ⟨hs, by simpa using hbad⟩
          · intro _
            rfl
  · rw [if_pos (by simpa using h0)]
    simp only [Bool.or_eq_true] at h0
    constructor
    · intro hc; exact absurd hc (by simp)
    · rintro ⟨hp, -⟩
      exact absurd (by tauto) h0

/-- The frequency accumulator is the sum of the per-platform reported
frequencies. -/
theorem freqSum_eq_sum_reportedFreq (analyses : List PlatformAnalysis) :
    freqSum analyses = (analyses.map reportedFreq).sum := by
  have hstep : ∀ (acc : ℚ) (a : PlatformAnalysis),
      (match a.personality.communication with
       | some c =>
         match c.frequency with
         | some f => if f = 0 then acc else acc + f
         | none => acc
       | none => acc) = acc + reportedFreq a := by
    intro acc a
    unfold reportedFreq
    cases hc : a.personality.communication with
    | none => simp
    | some c =>
      cases hf : c.frequency with
      | none => simp [hf]
      | some f =>
        by_cases hz : f = 0
        · simp [hf, hz]
        · simp [hf, hz]
  have hgen : ∀ (l : List PlatformAnalysis) (init : ℚ),
      l.foldl (fun acc a =>
        match a.personality.communication with
        | some c =>
          match c.frequency with
          | some f => if f = 0 then acc else acc + f
          | none => acc
        | none => acc) init = init + (l.map reportedFreq).sum := by
    intro l
    induction l with
    | nil => intro init; simp
    | cons a rest ih =>
      intro init
      rw [List.foldl_cons, hstep init a, ih, List.map_cons, List.sum_cons]
      ring
  unfold freqSum
  rw [hgen]
  ring

/-- C4: for every non-empty analysis list, the merged communication
frequency is the sum of the present-and-non-zero per-platform
frequencies divided by the total number of platform analyses (not by
the number of platforms that reported a frequency). -/
theorem merged_frequency_mean_over_all (analyses : List PlatformAnalysis)
    (h : analyses ≠ []) :
    (mergePersonalities analyses).communication.frequency
      = some ((analyses.map reportedFreq).sum / (analyses.length : ℚ)) := by
  have hlen : 0 < analyses.length := List.length_pos.mpr h
  unfold mergePersonalities
  simp only [if_pos hlen, freqSum_eq_sum_reportedFreq]

/-- C4 witness: platform A reports frequency 10, platform B reports 0,
two platforms analyzed — the merged frequency is 5. -/
theorem merged_frequency_mean_over_all_witness :
    (mergePersonalities
      [ { platform := Platform.github, url := "a", techStack := {},
          personality := { communication := some { frequency := some 10 } } }
      , { platform := Platform.blog, url := "b", techStack := {},
          personality := { communication := some { frequency := some 0 } } } ]
      ).communication.frequency = some 5 := by
  rw [merged_frequency_mean_over_all _ (by simp)]
  norm_num [reportedFreq]

/-- One orchestration slot appends exactly its slot outcome. -/
theorem tryPlatform_eq (acc : List PlatformAnalysis) (u : Option String)
    (f : String → Except String PlatformAnalysis) :
    tryPlatform acc u f = acc ++ slotOutcome u f := by
  unfold tryPlatform slotOutcome
  cases u with
  | none => simp
  | some s =>
    by_cases hs : s.isEmpty
    · simp [hs]
    · cases hf : f s with
      | ok a => simp [hs, hf]
      | error e => simp [hs, hf]

/-- The rendered summary always starts with the fixed template header,
so it is never the empty string. -/
theorem generateSummary_ne_empty (analyses : List PlatformAnalysis)
    (ts : TechStack) (pers : Personality) :
    generateSummary analyses ts pers ≠ "" := by
  intro hcontra
  have hlen := congrArg String.length hcontra
  unfold generateSummary at hlen
  simp only [String.length_append] at hlen
  have h14 : ("の分析結果に基づく要約：\n\n" : String).length = 14 := by decide
  have h0 : ("" : String).length = 0 := rfl
  rw [h14, h0] at hlen
  omega

/-- C2: for every request, the analysis never throws: it returns an
`AnalysisResult` whose platform list is exactly the concatenation of
the per-slot outcomes — a slot whose extractor throws contributes
nothing, so a failing platform is simply omitted — whose summary is a
non-empty string, and which degenerates to an empty platform list (but
still a valid result) when every requested platform's extractor
throws. -/
theorem analyze_partial_failure (ex : Extractors) (req : AnalysisRequest)
    (hsome : present req.github ∨ present req.twitter
      ∨ present req.speakerdeck ∨ present req.blog) :
    ∃ r, analyze ex req = Except.ok r
      ∧ r.platforms =
          slotOutcome req.github ex.github ++ slotOutcome req.twitter ex.twitter
            ++ slotOutcome req.speakerdeck ex.speakerdeck ++ slotOutcome req.blog ex.blog
      ∧ r.summary ≠ ""
      ∧ (((∀ u, req.github = some u → u.isEmpty = false → ∃ e, ex.github u = Except.error e)
          ∧ (∀ u, req.twitter = some u → u.isEmpty = false → ∃ e, ex.twitter u = Except.error e)
          ∧ (∀ u, req.speakerdeck = some u → u.isEmpty = false →
              ∃ e, ex.speakerdeck u = Except.error e)
          ∧ (∀ u, req.blog = some u → u.isEmpty = false → ∃ e, ex.blog u = Except.error e))
         → r.platforms = []) := by
  have hplat : tryPlatform (tryPlatform (tryPlatform (tryPlatform [] req.github ex.github)
        req.twitter ex.twitter) req.speakerdeck ex.speakerdeck) req.blog ex.blog
      = slotOutcome req.github ex.github ++ slotOutcome req.twitter ex.twitter
          ++ slotOutcome req.speakerdeck ex.speakerdeck ++ slotOutcome req.blog ex.blog := by
    rw [tryPlatform_eq, tryPlatform_eq, tryPlatform_eq, tryPlatform_eq]
    simp
  refine ⟨_, rfl, hplat, generateSummary_ne_empty _ _ _, ?_⟩
  rintro ⟨hg, ht, hs, hb⟩
  have slotNil : ∀ (u : Option String) (f : String → Except String PlatformAnalysis),
      (∀ s, u = some s → s.isEmpty = false → ∃ e, f s = Except.error e) →
      slotOutcome u f = [] := by
    intro u f hfail
    unfold slotOutcome
    cases hu : u with
    | none => rfl
    | some s =>
      by_cases he : s.isEmpty
      · simp [he]
      · obtain ⟨err, herr⟩ := hfail s hu (by simpa using he)
        simp [he, herr]
  refine hplat.trans ?_
  rw [slotNil _ _ hg, slotNil _ _ ht, slotNil _ _ hs, slotNil _ _ hb]
  rfl

/-- C2 witness: a request whose only platform is a code-host URL, with
every extractor throwing — the analysis still returns a valid result
with an empty platform list and a non-empty summary. -/
theorem analyze_partial_failure_witness :
    ∃ r, analyze
        { github := fun _ => Except.error "fail"
          twitter := fun _ => Except.error "fail"
          speakerdeck := fun _ => Except.error "fail"
          blog := fun _ => Except.error "fail" }
        { github := some "https://github.com/alice" } = Except.ok r
      ∧ r.platforms = [] ∧ r.summary ≠ "" := by
  obtain ⟨r, hok, _, hsum, hempty⟩ :=
    analyze_partial_failure
      { github := fun _ => Except.error "fail"
        twitter := fun _ => Except.error "fail"
        speakerdeck := fun _ => Except.error "fail"
        blog := fun _ => Except.error "fail" }
      { github := some "https://github.com/alice" }
      (Or.inl (by decide))
  refine ⟨r, hok, ?_, hsum⟩
  apply hempty
  refine ⟨?_, ?_, ?_, ?_⟩
  · intro u _ _; exact ⟨"fail", rfl⟩
  · intro u hu; exact Option.noConfusion hu
  · intro u hu; exact Option.noConfusion hu
  · intro u hu; exact Option.noConfusion hu

/-- A conditional-push accumulation loop is a filter followed by a map. -/
theorem foldl_push_eq {α β : Type} (g : α → Bool) (f : α → β) (l : List α) :
    ∀ init : List β,
    l.foldl (fun acc e => if g e then acc ++ [f e] else acc) init
      = init ++ (l.filter g).map f := by
  induction l with
  | nil => intro init; simp
  | cons e rest ih =>
    intro init
    rw [List.foldl_cons]
    by_cases hg : g e
    · rw [if_pos hg, ih, List.filter_cons_of_pos hg, List.map_cons]
      simp
    · rw [if_neg hg, ih, List.filter_cons_of_neg hg]

/-- The per-selector loop keeps exactly the qualifying elements, in
order. -/
theorem qualifyHits_eq (resolve : String → String → String) (pageUrl : String)
    (els : List BlogElement) :
    qualifyHits resolve pageUrl els
      = (els.filter goodElement).map (mkArticle resolve pageUrl) := by
  unfold qualifyHits
  rw [foldl_push_eq]
  rfl

/-- The fallback loop keeps exactly the article-like links, in order. -/
theorem fallbackArticles_eq (resolve : String → String → String) (pageUrl : String)
    (links : List BlogLink) :
    fallbackArticles resolve pageUrl links
      = (links.filter isArticleLikeLink).map (fun l =>
          { title := (trimStr l.text)
            url := resolve (l.href.getD "") pageUrl
            content := (trimStr l.text) }) := by
  unfold fallbackArticles
  rw [foldl_push_eq]
  rfl

/-- The selector loop returns the first selector's qualifying articles
once a selector qualifies; earlier selectors yielded nothing. -/
theorem firstStructural_spec (resolve : String → String → String) (pageUrl : String)
    (doc : BlogDoc) :
    ∀ (pre : List String) (s : String) (post : List String),
    (∀ s' ∈ pre, qualifyHits resolve pageUrl (doc.hits s') = []) →
    qualifyHits resolve pageUrl (doc.hits s) ≠ [] →
    firstStructural resolve pageUrl doc (pre ++ s :: post)
      = qualifyHits resolve pageUrl (doc.hits s) := by
  intro pre
  induction pre with
  | nil =>
    intro s post _ hne
    show firstStructural resolve pageUrl doc (s :: post) = _
    unfold firstStructural
    have : (qualifyHits resolve pageUrl (doc.hits s)).isEmpty = false := by
      cases hq : qualifyHits resolve pageUrl (doc.hits s) with
      | nil => exact absurd hq hne
      | cons a t => rfl
    simp [this]
  | cons p pre' ih =>
    intro s post hpre hne
    have hp : qualifyHits resolve pageUrl (doc.hits p) = [] :=
      hpre p (List.mem_cons_self p pre')
    show firstStructural resolve pageUrl doc (p :: (pre' ++ s :: post)) = _
    unfold firstStructural
    rw [hp]
    simp only [List.isEmpty_nil, if_pos]
    exact ih s post (fun s' hs' => hpre s' (List.mem_cons_of_mem p hs')) hne

/-- When no selector yields a qualifying article the selector loop
yields nothing. -/
theorem firstStructural_nil (resolve : String → String → String) (pageUrl : String)
    (doc : BlogDoc) :
    ∀ sels : List String,
    (∀ s ∈ sels, qualifyHits resolve pageUrl (doc.hits s) = []) →
    firstStructural resolve pageUrl doc sels = [] := by
  intro sels
  induction sels with
  | nil => intro _; rfl
  | cons s rest ih =>
    intro hall
    have hs : qualifyHits resolve pageUrl (doc.hits s) = [] :=
      hall s (List.mem_cons_self s rest)
    unfold firstStructural
    rw [hs]
    simp only [List.isEmpty_nil, if_pos]
    exact ih (fun s' hs' => hall s' (List.mem_cons_of_mem s hs'))

/-- C9: article discovery tries the structural selectors in their fixed
order and uses only the first selector that yields any article (an
element is kept only when both its trimmed heading and its trimmed text
are non-empty); when no selector yields an article, the in-page links
whose (trimmed) anchor text exceeds 20 characters and which look like
relative links become article stubs, so such a document yields at least
one article. -/
theorem blog_article_discovery (resolve : String → String → String)
    (pageUrl : String) (doc : BlogDoc) :
    (∀ (pre : List String) (s : String) (post : List String),
      articleSelectors = pre ++ s :: post →
      (∀ s' ∈ pre, qualifyHits resolve pageUrl (doc.hits s') = []) →
      qualifyHits resolve pageUrl (doc.hits s) ≠ [] →
      discoverArticles resolve pageUrl doc = qualifyHits resolve pageUrl (doc.hits s))
    ∧ (∀ els, qualifyHits resolve pageUrl els
        = (els.filter goodElement).map (mkArticle resolve pageUrl))
    ∧ ((∀ s ∈ articleSelectors, qualifyHits resolve pageUrl (doc.hits s) = []) →
        discoverArticles resolve pageUrl doc = fallbackArticles resolve pageUrl doc.links
          ∧ ((∃ l ∈ doc.links, isArticleLikeLink l) →
              discoverArticles resolve pageUrl doc ≠ [])) := by
  refine ⟨?_, fun els => qualifyHits_eq resolve pageUrl els, ?_⟩
  · intro pre s post hsplit hpre hne
    unfold discoverArticles
    rw [hsplit, firstStructural_spec resolve pageUrl doc pre s post hpre hne]
    have : (qualifyHits resolve pageUrl (doc.hits s)).isEmpty = false := by
      cases hq : qualifyHits resolve pageUrl (doc.hits s) with
      | nil => exact absurd hq hne
      | cons a t => rfl
    simp [this]
  · intro hall
    have hnil := firstStructural_nil resolve pageUrl doc articleSelectors hall
    have hdisc : discoverArticles resolve pageUrl doc
        = fallbackArticles resolve pageUrl doc.links := by
      unfold discoverArticles
      rw [hnil]
      rfl
    refine ⟨hdisc, ?_⟩
    rintro ⟨l, hl, hlike⟩
    rw [hdisc, fallbackArticles_eq]
    intro hcontra
    have : l ∈ doc.links.filter isArticleLikeLink := List.mem_filter_of_mem hl hlike
    rw [List.map_eq_nil] at hcontra
    rw [hcontra] at this
    simp at this

/-- C9 witness: a page where no structural selector matches anything
but one long-anchored relative link exists — discovery yields at least
one article stub. -/
theorem blog_article_discovery_witness :
    discoverArticles (fun href _ => href) "https://example.com"
      { hits := fun _ => []
        links := [{ href := some "/posts/hello"
                    text := "This anchor text is long enough to qualify" }] } ≠ [] := by
  have h := blog_article_discovery (fun href _ => href) "https://example.com"
    { hits := fun _ => []
      links := [{ href := some "/posts/hello"
                  text := "This anchor text is long enough to qualify" }] }
  refine (h.2.2 ?_).2 ?_
  · intro s _
    rfl
  · refine ⟨_, List.mem_cons_self _ _, ?_⟩
    decide

/-- A conditional-append collection loop is a `filterMap`. -/
theorem foldl_collect_eq {α β : Type} (f : α → Option β) (l : List α) :
    ∀ init : List β,
    l.foldl (fun acc a => acc ++ (f a).toList) init = init ++ l.filterMap f := by
  induction l with
  | nil => intro init; simp
  | cons a rest ih =>
    intro init
    rw [List.foldl_cons, ih]
    cases hf : f a with
    | some b =>
      rw [List.filterMap_cons, hf]
      simp
    | none =>
      rw [List.filterMap_cons, hf]
      simp

/-- What one analysis contributes to the collected work-style labels. -/
def workStyleContribution (a : PlatformAnalysis) : Option String :=
  match a.personality.workStyle with
  | some w => if w.isEmpty then none else some w
  | none => none

/-- What one analysis contributes to the collected style strings. -/
def styleContribution (a : PlatformAnalysis) : Option String :=
  match a.personality.communication with
  | some c =>
    match c.style with
    | some s => if s.isEmpty then none else some s
    | none => none
  | none => none

theorem collectedWorkStyles_eq (analyses : List PlatformAnalysis) :
    collectedWorkStyles analyses = analyses.filterMap workStyleContribution := by
  unfold collectedWorkStyles
  have hstep : ∀ (acc : List String) (a : PlatformAnalysis),
      (match a.personality.workStyle with
       | some w => if w.isEmpty then acc else acc ++ [w]
       | none => acc)
      = acc ++ (workStyleContribution a).toList := by
    intro acc a
    cases hw : a.personality.workStyle with
    | none => simp [workStyleContribution, hw]
    | some w =>
      by_cases he : w.isEmpty <;> simp [workStyleContribution, hw, he]
  simp only [hstep]
  have h := foldl_collect_eq workStyleContribution analyses []
  rw [List.nil_append] at h
  exact h

theorem collectedStyles_eq (analyses : List PlatformAnalysis) :
    collectedStyles analyses = analyses.filterMap styleContribution := by
  unfold collectedStyles
  have hstep : ∀ (acc : List String) (a : PlatformAnalysis),
      (match a.personality.communication with
       | some c =>
         match c.style with
         | some s => if s.isEmpty then acc else acc ++ [s]
         | none => acc
       | none => acc)
      = acc ++ (styleContribution a).toList := by
    intro acc a
    cases hc : a.personality.communication with
    | none => simp [styleContribution, hc]
    | some c =>
      cases hs : c.style with
      | none => simp [styleContribution, hc, hs]
      | some s =>
        by_cases he : s.isEmpty <;> simp [styleContribution, hc, hs, he]
  simp only [hstep]
  have h := foldl_collect_eq styleContribution analyses []
  rw [List.nil_append] at h
  exact h

theorem collectedWorkStyles_ne_empty {analyses : List PlatformAnalysis} :
    ∀ w ∈ collectedWorkStyles analyses, w.isEmpty = false := by
  rw [collectedWorkStyles_eq]
  intro w hw
  obtain ⟨a, _, hfa⟩ := List.mem_filterMap.mp hw
  cases hwa : a.personality.workStyle with
  | none => simp [workStyleContribution, hwa] at hfa
  | some w' =>
    by_cases he : w'.isEmpty
    · simp [workStyleContribution, hwa, he] at hfa
    · simp only [workStyleContribution, hwa, if_neg he] at hfa
      have hww := Option.some.inj hfa
      subst hww
      simpa using he

theorem collectedStyles_ne_empty {analyses : List PlatformAnalysis} :
    ∀ s ∈ collectedStyles analyses, s.isEmpty = false := by
  rw [collectedStyles_eq]
  intro s hs
  obtain ⟨a, _, hfa⟩ := List.mem_filterMap.mp hs
  cases hca : a.personality.communication with
  | none => simp [styleContribution, hca] at hfa
  | some c =>
    cases hsa : c.style with
    | none => simp [styleContribution, hca, hsa] at hfa
    | some s' =>
      by_cases he : s'.isEmpty
      · simp [styleContribution, hca, hsa, he] at hfa
      · simp only [styleContribution, hca, hsa, if_neg he] at hfa
        have hss := Option.some.inj hfa
        subst hss
        simpa using he

/-- The label tally is the accumulation of unit entries. -/
theorem countsOfLabels_eq (ls : List String) :
    countsOfLabels ls = accumInto [] (ls.map (fun w => (w, (1 : Int)))) := by
  unfold countsOfLabels accumInto
  rw [List.foldl_map]

theorem entrySum_map_one (ls : List String) (k : String) :
    entrySum (ls.map (fun w => (w, (1 : Int)))) k = (ls.count k : Int) := by
  induction ls with
  | nil => simp
  | cons w rest ih =>
    rw [List.map_cons, entrySum_cons, ih]
    by_cases hw : w = k
    · simp [hw, List.count_cons]
      omega
    · have : ¬ (w == k) = true := by simpa using hw
      simp [hw, List.count_cons, this]

theorem scoreIn_countsOfLabels (ls : List String) (k : String) :
    scoreIn (countsOfLabels ls) k = (ls.count k : Int) := by
  rw [countsOfLabels_eq, scoreIn_accumInto, entrySum_map_one, scoreIn_nil, Int.zero_add]

theorem keysOf_countsOfLabels (ls : List String) :
    keysOf (countsOfLabels ls) = dedupFirst ls := by
  rw [countsOfLabels_eq, keysOf_accumInto]
  have : keysOf (ls.map (fun w => (w, (1 : Int)))) = ls := by
    unfold keysOf
    rw [List.map_map]
    exact List.map_id ls
  rw [this]
  rfl

theorem nodup_keysOf_countsOfLabels (ls : List String) :
    (keysOf (countsOfLabels ls)).Nodup := by
  rw [countsOfLabels_eq]
  exact nodup_keysOf_accumInto _ [] List.nodup_nil

theorem mem_keysOf_countsOfLabels {ls : List String} {k : String} :
    k ∈ keysOf (countsOfLabels ls) ↔ k ∈ ls := by
  rw [keysOf_countsOfLabels, mem_dedupFirst]

theorem intCast_beq_natCast (a b : Nat) : (((a : Int) == (b : Int))) = (a == b) := by
  by_cases h : a = b
  · simp [h]
  · have hi : (a : Int) ≠ (b : Int) := by exact_mod_cast h
    simp [h, hi]

/-- The head of the stable-sorted label tally is a most frequent label,
and among equally frequent labels it is the first encountered. -/
theorem sortByScore_counts_head (ls : List String) (hne : ls ≠ []) :
    ∃ k0 c0 rest, sortByScore (countsOfLabels ls) = (k0, c0) :: rest
      ∧ k0 ∈ ls
      ∧ c0 = (ls.count k0 : Int)
      ∧ (∀ w ∈ ls, ls.count w ≤ ls.count k0)
      ∧ ls.find? (fun w => ls.count w == ls.count k0) = some k0 := by
  have hperm := sortByScore_perm (countsOfLabels ls)
  have hnodup : (keysOf (countsOfLabels ls)).Nodup := nodup_keysOf_countsOfLabels ls
  have hc_ne : countsOfLabels ls ≠ [] := by
    intro hc
    obtain ⟨w, hw⟩ := List.exists_mem_of_ne_nil ls hne
    have hmem : w ∈ keysOf (countsOfLabels ls) := mem_keysOf_countsOfLabels.mpr hw
    rw [hc] at hmem
    simp at hmem
  obtain ⟨⟨k0, c0⟩, rest, hsort⟩ :
      ∃ p rest, sortByScore (countsOfLabels ls) = p :: rest := by
    cases hss : sortByScore (countsOfLabels ls) with
    | nil =>
      have hl := hperm.length_eq
      rw [hss] at hl
      cases hcc : countsOfLabels ls with
      | nil => exact absurd hcc hc_ne
      | cons p r => rw [hcc] at hl; simp at hl
    | cons p r => exact ⟨p, r, rfl⟩
  have hhead_mem : (k0, c0) ∈ countsOfLabels ls :=
    hperm.mem_iff.mp (by rw [hsort]; exact List.mem_cons_self _ _)
  have hk0_keys : k0 ∈ keysOf (countsOfLabels ls) := List.mem_map_of_mem Prod.fst hhead_mem
  have hk0_ls : k0 ∈ ls := mem_keysOf_countsOfLabels.mp hk0_keys
  have hc0 : c0 = (ls.count k0 : Int) := by
    have h := scoreIn_of_mem_nodup hnodup hhead_mem
    rw [h, scoreIn_countsOfLabels]
  have hmax : ∀ w ∈ ls, ls.count w ≤ ls.count k0 := by
    intro w hw
    have hwk : w ∈ keysOf (countsOfLabels ls) := mem_keysOf_countsOfLabels.mpr hw
    have hwmem : (w, scoreIn (countsOfLabels ls) w) ∈ countsOfLabels ls := mem_of_scoreIn hwk
    have hwsort : (w, scoreIn (countsOfLabels ls) w) ∈ sortByScore (countsOfLabels ls) :=
      hperm.mem_iff.mpr hwmem
    rw [hsort] at hwsort
    rcases List.mem_cons.mp hwsort with heq | hrest
    · have h2 : scoreIn (countsOfLabels ls) w = c0 := congrArg Prod.snd heq
      rw [scoreIn_countsOfLabels, hc0] at h2
      exact le_of_eq (Nat.cast_inj.mp h2)
    · have hpw := (List.pairwise_cons.mp (hsort ▸ sorted_sortByScore (countsOfLabels ls))).1
        _ hrest
      rw [scoreIn_countsOfLabels] at hpw
      rw [hc0] at hpw
      have hpw' : (ls.count w : Int) ≤ (ls.count k0 : Int) := hpw
      exact_mod_cast hpw'
  refine ⟨k0, c0, rest, hsort, hk0_ls, hc0, hmax, ?_⟩
  have hp : ∀ a b : String × Int,
      (fun pr : String × Int => pr.2 == c0) a = true →
      (fun pr : String × Int => pr.2 == c0) b = true → b.2 ≤ a.2 := by
    intro a b ha hb
    simp only [beq_iff_eq] at ha hb
    rw [ha, hb]
  have hfilter := filter_sortByScore (fun pr : String × Int => pr.2 == c0)
    (countsOfLabels ls) hp
  rw [hsort, List.filter_cons_of_pos (by simp)] at hfilter
  have hfind_counts : (countsOfLabels ls).find? (fun pr : String × Int => pr.2 == c0)
      = some (k0, c0) := by
    rw [find?_eq_head?_filter, ← hfilter]
    rfl
  have hcongr : (countsOfLabels ls).find? (fun pr : String × Int => pr.2 == c0)
      = (countsOfLabels ls).find?
          (fun pr : String × Int => ((ls.count pr.1 : Int) == c0)) := by
    apply find?_congr_mem
    intro pr hpr
    have h2 := scoreIn_of_mem_nodup hnodup (by
      rw [show pr = (pr.1, pr.2) from rfl] at hpr
      exact hpr)
    rw [scoreIn_countsOfLabels] at h2
    rw [← h2]
  have hkey : (keysOf (countsOfLabels ls)).find?
      (fun w : String => ((ls.count w : Int) == c0)) = some k0 := by
    unfold keysOf
    rw [List.find?_map]
    have : ((countsOfLabels ls).find?
        ((fun w : String => ((ls.count w : Int) == c0)) ∘ Prod.fst)) = some (k0, c0) := by
      rw [show ((fun w : String => ((ls.count w : Int) == c0)) ∘ Prod.fst)
          = (fun pr : String × Int => ((ls.count pr.1 : Int) == c0)) from rfl]
      rw [← hcongr, hfind_counts]
    rw [this]
    rfl
  rw [keysOf_countsOfLabels] at hkey
  have hded : (dedupFirst ls).find? (fun w : String => ((ls.count w : Int) == c0))
      = ls.find? (fun w : String => ((ls.count w : Int) == c0)) := by
    unfold dedupFirst
    rw [find?_foldl_addTopic]
    rfl
  rw [hded] at hkey
  have hconv : ls.find? (fun w : String => ((ls.count w : Int) == c0))
      = ls.find? (fun w : String => ls.count w == ls.count k0) := by
    apply find?_congr_mem
    intro w _
    rw [hc0, intCast_beq_natCast]
  rw [← hconv, hkey]

/-- C6: the merged work style is the most frequent of the non-empty
per-platform work-style labels (`none` when there are none), and among
equally frequent labels the first encountered in iteration order wins:
the first collected label whose occurrence count equals the winner's is
the winner itself. -/
theorem merged_workstyle_plurality (analyses : List PlatformAnalysis) :
    (collectedWorkStyles analyses = [] → (mergePersonalities analyses).workStyle = none)
    ∧ (collectedWorkStyles analyses ≠ [] →
        ∃ w, (mergePersonalities analyses).workStyle = some w
          ∧ w ∈ collectedWorkStyles analyses
          ∧ (∀ w' ∈ collectedWorkStyles analyses,
              (collectedWorkStyles analyses).count w'
                ≤ (collectedWorkStyles analyses).count w)
          ∧ (collectedWorkStyles analyses).find?
              (fun w' => (collectedWorkStyles analyses).count w'
                == (collectedWorkStyles analyses).count w) = some w) := by
  constructor
  · intro hnil
    have h1 : countsOfLabels (collectedWorkStyles analyses) = [] := by rw [hnil]; rfl
    show (mergePersonalities analyses).workStyle = none
    unfold mergePersonalities
    simp only [h1, sortByScore, List.mergeSort_nil, List.map_nil, List.head?_nil]
  · intro hne
    obtain ⟨k0, c0, rest, hsort, hk0ls, hc0, hmax, hfind⟩ :=
      sortByScore_counts_head (collectedWorkStyles analyses) hne
    have hk0ne : k0.isEmpty = false := collectedWorkStyles_ne_empty k0 hk0ls
    refine ⟨k0, ?_, hk0ls, hmax, hfind⟩
    show (mergePersonalities analyses).workStyle = some k0
    unfold mergePersonalities
    simp only [hsort, List.map_cons, List.head?_cons, hk0ne]
    simp

/-- C6 witness: per-platform labels collaborative, collaborative, solo
merge to collaborative. -/
theorem merged_workstyle_plurality_witness :
    (mergePersonalities
      [ { platform := Platform.github, url := "a", techStack := {},
          personality := { workStyle := some "collaborative" } }
      , { platform := Platform.blog, url := "b", techStack := {},
          personality := { workStyle := some "collaborative" } }
      , { platform := Platform.twitter, url := "c", techStack := {},
          personality := { workStyle := some "solo" } } ]).workStyle
      = some "collaborative" := by
  obtain ⟨w, hw, hmem, hmax, -⟩ :=
    (merged_workstyle_plurality
      [ { platform := Platform.github, url := "a", techStack := {},
          personality := { workStyle := some "collaborative" } }
      , { platform := Platform.blog, url := "b", techStack := {},
          personality := { workStyle := some "collaborative" } }
      , { platform := Platform.twitter, url := "c", techStack := {},
          personality := { workStyle := some "solo" } } ]).2 (by decide)
  have hws : collectedWorkStyles
      [ { platform := Platform.github, url := "a", techStack := {},
          personality := { workStyle := some "collaborative" } }
      , { platform := Platform.blog, url := "b", techStack := {},
          personality := { workStyle := some "collaborative" } }
      , { platform := Platform.twitter, url := "c", techStack := {},
          personality := { workStyle := some "solo" } } ]
      = ["collaborative", "collaborative", "solo"] := by decide
  rw [hws] at hmem hmax
  have hcount := hmax "collaborative" (by decide)
  simp only [List.mem_cons, List.not_mem_nil, or_false] at hmem
  rcases hmem with h | h | h
  · rw [hw, h]
  · rw [hw, h]
  · rw [h] at hcount
    exact absurd hcount (by decide)

theorem append_ne_empty_of_right {a b : String} (hb : b ≠ "") : a ++ b ≠ "" := by
  intro hc
  have hlen := congrArg String.length hc
  rw [String.length_append] at hlen
  have hb' : 0 < b.length := by
    cases hbl : b.length with
    | zero =>
      have hdata : b.data = [] := List.length_eq_zero.mp hbl
      exact absurd (String.ext hdata) hb
    | succ n => omega
  have h0 : ("" : String).length = 0 := rfl
  rw [h0] at hlen
  omega

/-- When every collected style string is non-empty, the summarized
style label is non-empty. -/
theorem summarize_ne_empty (styles : List String)
    (h : ∀ s ∈ styles, s.isEmpty = false) :
    summarizeCommunicationStyle styles ≠ "" := by
  have hsuffix : styleSuffix ≠ "" := by decide
  unfold summarizeCommunicationStyle
  by_cases h0 : styles.length = 0
  · rw [if_pos h0]
    decide
  · rw [if_neg h0]
    by_cases h1 : styles.length = 1
    · rw [if_pos h1]
      obtain ⟨s, hs⟩ := List.length_eq_one.mp h1
      subst hs
      have hne := h s (List.mem_cons_self s [])
      simp only [List.headD_cons]
      intro hc
      rw [hc] at hne
      exact absurd hne (by decide)
    · rw [if_neg h1]
      cases hsk : (sortByScore (categoryCounts styles)).map Prod.fst with
      | nil =>
        have hnil : styles ≠ [] := by
          intro hc
          rw [hc] at h0
          exact h0 rfl
        obtain ⟨s0, rest, hs⟩ := List.exists_cons_of_ne_nil hnil
        subst hs
        have hne := h s0 (List.mem_cons_self s0 rest)
        simp only [List.headD_cons]
        intro hc
        rw [hc] at hne
        exact absurd hne (by decide)
      | cons k1 ktail =>
        cases ktail with
        | nil => exact append_ne_empty_of_right hsuffix
        | cons k2 krest => exact append_ne_empty_of_right hsuffix

/-- C10: the merged personality always carries a non-empty
communication style — the insufficient-information label whenever no
platform contributed a (truthy) style, including non-empty analysis
lists whose platforms are style-less, and in particular for the empty
list — and a numeric frequency (0 for the empty list), while the
merged work style is absent exactly when no platform reports a
non-empty work-style label. -/
theorem merged_personality_totality (analyses : List PlatformAnalysis) :
    (∃ s, (mergePersonalities analyses).communication.style = some s ∧ s ≠ "")
    ∧ ((∀ a ∈ analyses,
          a.personality.communication = none
            ∨ ∃ c, a.personality.communication = some c
                ∧ (c.style = none ∨ c.style = some "")) →
        (mergePersonalities analyses).communication.style = some insufficientInfoLabel)
    ∧ (analyses = [] →
        (mergePersonalities analyses).communication.style = some insufficientInfoLabel
          ∧ (mergePersonalities analyses).communication.frequency = some 0)
    ∧ (∃ f, (mergePersonalities analyses).communication.frequency = some f)
    ∧ ((mergePersonalities analyses).workStyle = none ↔
        ∀ a ∈ analyses, a.personality.workStyle = none
          ∨ a.personality.workStyle = some "") := by
  have hstyle : (mergePersonalities analyses).communication.style
      = some (summarizeCommunicationStyle (collectedStyles analyses)) := rfl
  refine ⟨?_, ?_, ?_, ⟨_, rfl⟩, ?_⟩
  · refine ⟨summarizeCommunicationStyle (collectedStyles analyses), hstyle, ?_⟩
    apply summarize_ne_empty
    exact collectedStyles_ne_empty
  · intro hall
    have hnil : collectedStyles analyses = [] := by
      rw [collectedStyles_eq, List.filterMap_eq_nil_iff]
      intro a ha
      have hempty : ("" : String).isEmpty = true := rfl
      rcases hall a ha with hc | ⟨c, hc, hcs⟩
      · simp [styleContribution, hc]
      · rcases hcs with hs | hs
        · simp [styleContribution, hc, hs]
        · simp [styleContribution, hc, hs, hempty]
    rw [hstyle, hnil]
    rfl
  · intro hnil
    subst hnil
    exact ⟨rfl, rfl⟩
  · have hcollect_iff : collectedWorkStyles analyses = [] ↔
        ∀ a ∈ analyses, a.personality.workStyle = none
          ∨ a.personality.workStyle = some "" := by
      rw [collectedWorkStyles_eq, List.filterMap_eq_nil_iff]
      have hpoint : ∀ a : PlatformAnalysis, workStyleContribution a = none ↔
          (a.personality.workStyle = none ∨ a.personality.workStyle = some "") := by
        intro a
        cases hw : a.personality.workStyle with
        | none => simp [workStyleContribution, hw]
        | some w =>
          by_cases he : w.isEmpty
          · have hw' : w = "" := (String.isEmpty_iff w).mp he
            subst hw'
            simp [workStyleContribution, hw, he]
          · have hw' : ¬ w = "" := fun hc => he (by rw [hc]; rfl)
            simp [workStyleContribution, hw, he, hw']
      constructor
      · intro hall a ha
        exact (hpoint a).mp (hall a ha)
      · intro hall a ha
        exact (hpoint a).mpr (hall a ha)
    constructor
    · intro hnone
      rw [← hcollect_iff]
      by_contra hne
      obtain ⟨k0, c0, rest, hsort, hk0ls, -, -, -⟩ :=
        sortByScore_counts_head (collectedWorkStyles analyses) hne
      have hk0ne : k0.isEmpty = false := collectedWorkStyles_ne_empty k0 hk0ls
      have : (mergePersonalities analyses).workStyle = some k0 := by
        unfold mergePersonalities
        simp only [hsort, List.map_cons, List.head?_cons, hk0ne]
        simp
      rw [this] at hnone
      exact Option.noConfusion hnone
    · intro hr
      have hnil := hcollect_iff.mpr hr
      have h1 : countsOfLabels (collectedWorkStyles analyses) = [] := by rw [hnil]; rfl
      unfold mergePersonalities
      simp only [h1, sortByScore, List.mergeSort_nil, List.map_nil, List.head?_nil]

/-- C10 witness: the empty analysis list yields the
insufficient-information style, frequency 0 and no work style; and a
non-empty list whose only platform contributes no style also yields
the insufficient-information style. -/
theorem merged_personality_totality_witness :
    (mergePersonalities ([] : List PlatformAnalysis)).communication.style
        = some insufficientInfoLabel
      ∧ (mergePersonalities ([] : List PlatformAnalysis)).communication.frequency = some 0
      ∧ (mergePersonalities ([] : List PlatformAnalysis)).workStyle = none
      ∧ (mergePersonalities
          [ { platform := Platform.github, url := "a", techStack := {},
              personality := {} } ]).communication.style
          = some insufficientInfoLabel := by
  obtain ⟨-, -, h3, -, h4⟩ := merged_personality_totality []
  obtain ⟨hs, hf⟩ := h3 rfl
  obtain ⟨-, hgen, -, -, -⟩ := merged_personality_totality
    [ { platform := Platform.github, url := "a", techStack := {}, personality := {} } ]
  refine ⟨hs, hf, h4.mpr ?_, hgen ?_⟩
  · intro a ha
    exact absurd ha (List.not_mem_nil a)
  · intro a ha
    rcases List.mem_cons.mp ha with rfl | h'
    · exact Or.inl rfl
    · exact absurd h' (List.not_mem_nil a)

/-! ### Category-count lemmas for the communication-style summary -/

theorem foldl_guarded_bump (s : String) (pats : List (List String × String)) :
    ∀ m : List (String × Int),
    pats.foldl (fun m' pk => if patternTest pk.1 s then bump m' (pk.2, 1) else m') m
      = accumInto m ((pats.filter (fun pk => patternTest pk.1 s)).map
          (fun pk => (pk.2, (1 : Int)))) := by
  induction pats with
  | nil => intro m; rfl
  | cons pk rest ih =>
    intro m
    rw [List.foldl_cons]
    by_cases ht : patternTest pk.1 s
    · have hfc : (pk :: rest).filter (fun q => patternTest q.1 s)
          = pk :: rest.filter (fun q => patternTest q.1 s) :=
        List.filter_cons_of_pos ht
      rw [if_pos ht, ih, hfc, List.map_cons]
      rfl
    · have hfc : (pk :: rest).filter (fun q => patternTest q.1 s)
          = rest.filter (fun q => patternTest q.1 s) :=
        List.filter_cons_of_neg ht
      rw [if_neg ht, ih, hfc]

theorem categoryCounts_eq (styles : List String) :
    categoryCounts styles
      = styles.foldl (fun m s => accumInto m (styleCategoryEntries s)) [] := by
  unfold categoryCounts
  have hfun : (fun (m : List (String × Int)) (s : String) =>
      keywordPatterns.foldl
        (fun m' pk => if patternTest pk.1 s then bump m' (pk.2, 1) else m') m)
      = (fun m s => accumInto m (styleCategoryEntries s)) := by
    funext m s
    exact foldl_guarded_bump s keywordPatterns m
  rw [hfun]

theorem scoreIn_foldl_accum (k : String) :
    ∀ (styles : List String) (m : List (String × Int)),
    scoreIn (styles.foldl (fun m' s => accumInto m' (styleCategoryEntries s)) m) k
      = scoreIn m k
        + (styles.map (fun s => entrySum (styleCategoryEntries s) k)).sum := by
  intro styles
  induction styles with
  | nil => intro m; simp
  | cons s rest ih =>
    intro m
    rw [List.foldl_cons, ih, scoreIn_accumInto, List.map_cons, List.sum_cons]
    ring

theorem entrySum_eq_zero_of_keys (l : List (String × Int)) (k : String)
    (h : ∀ e ∈ l, e.1 ≠ k) : entrySum l k = 0 := by
  induction l with
  | nil => rfl
  | cons e rest ih =>
    rw [entrySum_cons, if_neg (h e (List.mem_cons_self e rest)),
      ih (fun e' he' => h e' (List.mem_cons_of_mem e he'))]
    rfl

theorem entrySum_filter_map_one (s : String) :
    ∀ pats : List (List String × String), (pats.map Prod.snd).Nodup →
    ∀ pk ∈ pats,
    entrySum ((pats.filter (fun q => patternTest q.1 s)).map
        (fun q => (q.2, (1 : Int)))) pk.2
      = if patternTest pk.1 s then 1 else 0 := by
  intro pats
  induction pats with
  | nil => intro _ pk hpk; exact absurd hpk (List.not_mem_nil pk)
  | cons q rest ih =>
    intro hnd pk hpk
    have hnd' : (rest.map Prod.snd).Nodup := (List.nodup_cons.mp hnd).2
    have hqnotin : q.2 ∉ rest.map Prod.snd := (List.nodup_cons.mp hnd).1
    have hzero_rest : ∀ k, k ∉ rest.map Prod.snd →
        entrySum ((rest.filter (fun q' => patternTest q'.1 s)).map
          (fun q' => (q'.2, (1 : Int)))) k = 0 := by
      intro k hk
      apply entrySum_eq_zero_of_keys
      intro e he
      obtain ⟨q', hq', heq⟩ := List.mem_map.mp he
      have hq'r : q' ∈ rest := List.mem_of_mem_filter hq'
      intro hc
      rw [← heq] at hc
      exact hk (hc ▸ List.mem_map_of_mem Prod.snd hq'r)
    rcases List.mem_cons.mp hpk with rfl | hpkr
    · by_cases ht : patternTest pk.1 s
      · have hfc : (pk :: rest).filter (fun q => patternTest q.1 s)
            = pk :: rest.filter (fun q => patternTest q.1 s) :=
          List.filter_cons_of_pos ht
        rw [hfc, List.map_cons, entrySum_cons, hzero_rest pk.2 hqnotin]
        simp [ht]
      · have hfc : (pk :: rest).filter (fun q => patternTest q.1 s)
            = rest.filter (fun q => patternTest q.1 s) :=
          List.filter_cons_of_neg ht
        rw [hfc, hzero_rest pk.2 hqnotin, if_neg ht]
    · have hne : ¬ q.2 = pk.2 := by
        intro hc
        exact hqnotin (hc ▸ List.mem_map_of_mem Prod.snd hpkr)
      by_cases ht : patternTest q.1 s
      · have hfc : (q :: rest).filter (fun q' => patternTest q'.1 s)
            = q :: rest.filter (fun q' => patternTest q'.1 s) :=
          List.filter_cons_of_pos ht
        rw [hfc, List.map_cons, entrySum_cons, if_neg hne, ih hnd' pk hpkr]
        ring_nf
      · have hfc : (q :: rest).filter (fun q' => patternTest q'.1 s)
            = rest.filter (fun q' => patternTest q'.1 s) :=
          List.filter_cons_of_neg ht
        rw [hfc]
        exact ih hnd' pk hpkr

theorem keywordPatterns_snd_nodup : (keywordPatterns.map Prod.snd).Nodup := by
  decide

theorem sum_ite_one (alts : List String) (styles : List String) :
    (styles.map (fun s => if patternTest alts s then (1 : Int) else 0)).sum
      = categoryMatchCount styles alts := by
  unfold categoryMatchCount
  induction styles with
  | nil => simp
  | cons s rest ih =>
    rw [List.map_cons, List.sum_cons, ih]
    by_cases ht : patternTest alts s
    · have hfc : (s :: rest).filter (fun s' => patternTest alts s')
          = s :: rest.filter (fun s' => patternTest alts s') :=
        List.filter_cons_of_pos ht
      rw [if_pos ht, hfc, List.length_cons]
      push_cast
      ring
    · have hfc : (s :: rest).filter (fun s' => patternTest alts s')
          = rest.filter (fun s' => patternTest alts s') :=
        List.filter_cons_of_neg ht
      rw [if_neg ht, hfc]
      ring

theorem scoreIn_categoryCounts (styles : List String) {pk : List String × String}
    (hpk : pk ∈ keywordPatterns) :
    scoreIn (categoryCounts styles) pk.2 = categoryMatchCount styles pk.1 := by
  rw [categoryCounts_eq, scoreIn_foldl_accum, scoreIn_nil]
  have hone : ∀ s : String, entrySum (styleCategoryEntries s) pk.2
      = if patternTest pk.1 s then (1 : Int) else 0 := by
    intro s
    unfold styleCategoryEntries
    exact entrySum_filter_map_one s keywordPatterns keywordPatterns_snd_nodup pk hpk
  simp only [hone]
  rw [sum_ite_one]
  ring

theorem mem_keysOf_accumInto {m l : List (String × Int)} {k : String} :
    k ∈ keysOf (accumInto m l) ↔ k ∈ keysOf m ∨ k ∈ keysOf l := by
  rw [keysOf_accumInto, mem_foldl_addTopic]

theorem keysOf_categoryCounts_subset (styles : List String) :
    ∀ k ∈ keysOf (categoryCounts styles), ∃ pk ∈ keywordPatterns, pk.2 = k := by
  rw [categoryCounts_eq]
  have haux : ∀ (sl : List String) (m : List (String × Int)),
      (∀ k ∈ keysOf m, ∃ pk ∈ keywordPatterns, pk.2 = k) →
      ∀ k ∈ keysOf (sl.foldl (fun m' s => accumInto m' (styleCategoryEntries s)) m),
        ∃ pk ∈ keywordPatterns, pk.2 = k := by
    intro sl
    induction sl with
    | nil => intro m hm; exact hm
    | cons s rest ih =>
      intro m hm
      apply ih
      intro k hk
      rcases mem_keysOf_accumInto.mp hk with hk1 | hk2
      · exact hm k hk1
      · unfold styleCategoryEntries keysOf at hk2
        rw [List.map_map] at hk2
        obtain ⟨pk, hpk, hpkk⟩ := List.mem_map.mp hk2
        exact ⟨pk, List.mem_of_mem_filter hpk, hpkk⟩
  apply haux
  intro k hk
  simp at hk

theorem nodup_keysOf_categoryCounts (styles : List String) :
    (keysOf (categoryCounts styles)).Nodup := by
  rw [categoryCounts_eq]
  have haux : ∀ (sl : List String) (m : List (String × Int)), (keysOf m).Nodup →
      (keysOf (sl.foldl (fun m' s => accumInto m' (styleCategoryEntries s)) m)).Nodup := by
    intro sl
    induction sl with
    | nil => intro m hm; exact hm
    | cons s rest ih =>
      intro m hm
      exact ih _ (nodup_keysOf_accumInto _ m hm)
  exact haux styles [] List.nodup_nil

theorem categoryCounts_nil_iff (styles : List String) :
    categoryCounts styles = [] ↔
      ∀ s ∈ styles, ∀ pk ∈ keywordPatterns, patternTest pk.1 s = false := by
  constructor
  · intro hnil s hs pk hpk
    by_contra hbad
    have hmatch : patternTest pk.1 s = true := by
      cases hps : patternTest pk.1 s with
      | true => rfl
      | false => exact absurd hps hbad
    have hpos : 0 < categoryMatchCount styles pk.1 := by
      unfold categoryMatchCount
      have : s ∈ styles.filter (fun s' => patternTest pk.1 s') :=
        List.mem_filter_of_mem hs hmatch
      have hlen : 0 < (styles.filter (fun s' => patternTest pk.1 s')).length :=
        List.length_pos.mpr (List.ne_nil_of_mem this)
      exact_mod_cast hlen
    have hscore := scoreIn_categoryCounts styles hpk
    rw [hnil] at hscore
    rw [scoreIn_nil] at hscore
    omega
  · intro hall
    rw [categoryCounts_eq]
    have haux : ∀ sl : List String, (∀ s ∈ sl, ∀ pk ∈ keywordPatterns,
        patternTest pk.1 s = false) →
        ∀ m : List (String × Int),
        sl.foldl (fun m' s => accumInto m' (styleCategoryEntries s)) m = m := by
      intro sl
      induction sl with
      | nil => intro _ m; rfl
      | cons s rest ih =>
        intro hsl m
        rw [List.foldl_cons]
        have hentries : styleCategoryEntries s = [] := by
          unfold styleCategoryEntries
          have hfilter : keywordPatterns.filter (fun pk => patternTest pk.1 s) = [] := by
            apply List.filter_eq_nil_iff.mpr
            intro pk hpk
            simp [hsl s (List.mem_cons_self s rest) pk hpk]
          rw [hfilter]
          rfl
        rw [hentries]
        exact ih (fun s' hs' => hsl s' (List.mem_cons_of_mem s hs')) m
    exact haux styles hall []

/-- C5: the communication-style summary returns the
insufficient-information label for zero collected styles and the single
style verbatim for one; with two or more styles it tallies, per keyword
category, how many style strings the category matches, and composes the
label from the top two categories by match count — one category when
only one matched, and the first style string when no category matched
any string. -/
theorem comm_style_summary_spec (styles : List String) :
    (styles = [] → summarizeCommunicationStyle styles = insufficientInfoLabel)
    ∧ (∀ s, styles = [s] → summarizeCommunicationStyle styles = s)
    ∧ (2 ≤ styles.length →
        ((categoryCounts styles = [] ↔
            ∀ s ∈ styles, ∀ pk ∈ keywordPatterns, patternTest pk.1 s = false)
          ∧ (categoryCounts styles = [] →
              ∀ s0 rest, styles = s0 :: rest → summarizeCommunicationStyle styles = s0)
          ∧ (∀ k c, categoryCounts styles = [(k, c)] →
              summarizeCommunicationStyle styles = k ++ styleSuffix)
          ∧ (2 ≤ (categoryCounts styles).length →
              ∃ k1 c1 k2 c2,
                summarizeCommunicationStyle styles = k1 ++ "かつ" ++ k2 ++ styleSuffix
                ∧ (k1, c1) ∈ categoryCounts styles
                ∧ (k2, c2) ∈ categoryCounts styles
                ∧ k1 ≠ k2
                ∧ (∀ p ∈ categoryCounts styles, p.2 ≤ c1)
                ∧ (∀ p ∈ categoryCounts styles, p.1 ≠ k1 → p.2 ≤ c2))))
    ∧ (∀ k c, (k, c) ∈ categoryCounts styles →
        ∃ pk ∈ keywordPatterns, pk.2 = k ∧ c = categoryMatchCount styles pk.1) := by
  refine ⟨?_, ?_, ?_, ?_⟩
  · intro h
    subst h
    rfl
  · intro s h
    subst h
    rfl
  · intro hlen2
    have h0 : ¬ styles.length = 0 := by omega
    have h1 : ¬ styles.length = 1 := by omega
    refine ⟨categoryCounts_nil_iff styles, ?_, ?_, ?_⟩
    · intro hnil s0 rest hs
      unfold summarizeCommunicationStyle
      rw [if_neg h0, if_neg h1, hnil]
      simp only [sortByScore, List.mergeSort_nil, List.map_nil]
      rw [hs]
      rfl
    · intro k c hone
      unfold summarizeCommunicationStyle
      rw [if_neg h0, if_neg h1, hone]
      simp only [sortByScore, List.mergeSort_singleton, List.map_cons, List.map_nil]
    · intro hcc2
      have hperm := sortByScore_perm (categoryCounts styles)
      have hlen : (sortByScore (categoryCounts styles)).length
          = (categoryCounts styles).length := hperm.length_eq
      obtain ⟨a, b, r, hsort⟩ :
          ∃ a b r, sortByScore (categoryCounts styles) = a :: b :: r := by
        cases hs1 : sortByScore (categoryCounts styles) with
        | nil =>
          rw [hs1] at hlen
          simp at hlen
          omega
        | cons a t =>
          cases t with
          | nil =>
            rw [hs1] at hlen
            simp at hlen
            omega
          | cons b r => exact ⟨a, b, r, rfl⟩
      obtain ⟨k1, c1⟩ := a
      obtain ⟨k2, c2⟩ := b
      have hpair := hsort ▸ sorted_sortByScore (categoryCounts styles)
      refine ⟨k1, c1, k2, c2, ?_, ?_, ?_, ?_, ?_, ?_⟩
      · unfold summarizeCommunicationStyle
        rw [if_neg h0, if_neg h1, hsort]
        rfl
      · exact hperm.mem_iff.mp (by rw [hsort]; exact List.mem_cons_self _ _)
      · exact hperm.mem_iff.mp
          (by rw [hsort]; exact List.mem_cons_of_mem _ (List.mem_cons_self _ _))
      · have hnodup_sorted : ((sortByScore (categoryCounts styles)).map Prod.fst).Nodup := by
          have hp := (sortByScore_perm (categoryCounts styles)).map (f := Prod.fst)
          exact hp.nodup_iff.mpr (nodup_keysOf_categoryCounts styles)
        rw [hsort] at hnodup_sorted
        simp only [List.map_cons] at hnodup_sorted
        have hni := (List.nodup_cons.mp hnodup_sorted).1
        intro hc
        exact hni (hc ▸ List.mem_cons_self _ _)
      · intro p hp
        have hps : p ∈ sortByScore (categoryCounts styles) := hperm.mem_iff.mpr hp
        rw [hsort] at hps
        rcases List.mem_cons.mp hps with rfl | hps'
        · exact le_refl c1
        · exact (List.pairwise_cons.mp hpair).1 p hps'
      · intro p hp hpk1
        have hps : p ∈ sortByScore (categoryCounts styles) := hperm.mem_iff.mpr hp
        rw [hsort] at hps
        rcases List.mem_cons.mp hps with rfl | hps'
        · exact absurd rfl hpk1
        · rcases List.mem_cons.mp hps' with rfl | hps''
          · exact le_refl c2
          · have htail := (List.pairwise_cons.mp hpair).2
            exact (List.pairwise_cons.mp htail).1 p hps''
  · intro k c hmem
    have hk : k ∈ keysOf (categoryCounts styles) := List.mem_map_of_mem Prod.fst hmem
    obtain ⟨pk, hpk, hpkk⟩ := keysOf_categoryCounts_subset styles k hk
    refine ⟨pk, hpk, hpkk, ?_⟩
    have hc := scoreIn_of_mem_nodup (nodup_keysOf_categoryCounts styles) hmem
    have hsc := scoreIn_categoryCounts styles hpk
    rw [hpkk] at hsc
    rw [hc, hsc]

/-- C5 witness: three style strings, two matching the technical
category and one the team-oriented category, compose the
technical-and-team label. -/
theorem comm_style_summary_spec_witness :
    summarizeCommunicationStyle ["技術の話", "コードと実装", "チームで協力"]
      = "技術的かつ協調的なコミュニケーションスタイル" := by
  have hcc : categoryCounts ["技術の話", "コードと実装", "チームで協力"]
      = [("技術的", 2), ("協調的", 1)] := by decide
  obtain ⟨-, -, h3, -⟩ :=
    comm_style_summary_spec ["技術の話", "コードと実装", "チームで協力"]
  obtain ⟨-, -, -, htop⟩ := h3 (by decide)
  obtain ⟨k1, c1, k2, c2, hsum, hmem1, hmem2, hne, hmax, -⟩ :=
    htop (by rw [hcc]; decide)
  rw [hcc] at hmem1 hmem2 hmax
  have hk1 : k1 = "技術的" := by
    have h2le := hmax ("技術的", 2) (List.mem_cons_self _ _)
    rcases List.mem_cons.mp hmem1 with h | h
    · exact congrArg Prod.fst h
    · rcases List.mem_cons.mp h with h' | h'
      · have hc1 : c1 = 1 := congrArg Prod.snd h'
        rw [hc1] at h2le
        exact absurd h2le (by decide)
      · exact absurd h' (List.not_mem_nil _)
  have hk2 : k2 = "協調的" := by
    rcases List.mem_cons.mp hmem2 with h | h
    · have hkk : k2 = "技術的" := congrArg Prod.fst h
      rw [hk1] at hne
      exact absurd hkk.symm hne
    · rcases List.mem_cons.mp h with h' | h'
      · exact congrArg Prod.fst h'
      · exact absurd h' (List.not_mem_nil _)
  rw [hk1, hk2] at hsum
  rw [hsum]
  decide

/-! ### Tally-merge lemmas (`mergeTechStacks`) -/

theorem accumField_step (get : PlatformAnalysis → Option (List (String × Int)))
    (m : List (String × Int)) (a : PlatformAnalysis) :
    (match get a with
     | some l => accumInto m l
     | none => m) = accumInto m (fieldEntries get a) := by
  unfold fieldEntries
  cases hg : get a with
  | none => rfl
  | some l => rfl

theorem accumField_eq (get : PlatformAnalysis → Option (List (String × Int)))
    (analyses : List PlatformAnalysis) :
    accumField get analyses
      = analyses.foldl (fun m a => accumInto m (fieldEntries get a)) [] := by
  unfold accumField
  have hfun : (fun (m : List (String × Int)) (a : PlatformAnalysis) =>
      match get a with
      | some l => accumInto m l
      | none => m) = (fun m a => accumInto m (fieldEntries get a)) := by
    funext m a
    exact accumField_step get m a
  rw [hfun]

theorem scoreIn_foldl_accumInto {α : Type} (ent : α → List (String × Int)) (k : String) :
    ∀ (l : List α) (m : List (String × Int)),
    scoreIn (l.foldl (fun m' x => accumInto m' (ent x)) m) k
      = scoreIn m k + (l.map (fun x => entrySum (ent x) k)).sum := by
  intro l
  induction l with
  | nil => intro m; simp
  | cons x rest ih =>
    intro m
    rw [List.foldl_cons, ih, scoreIn_accumInto, List.map_cons, List.sum_cons]
    ring

theorem mem_keysOf_foldl_accumInto {α : Type} (ent : α → List (String × Int)) :
    ∀ (l : List α) (m : List (String × Int)) (k : String),
    k ∈ keysOf (l.foldl (fun m' x => accumInto m' (ent x)) m) ↔
      k ∈ keysOf m ∨ ∃ x ∈ l, k ∈ keysOf (ent x) := by
  intro l
  induction l with
  | nil => intro m k; simp
  | cons x rest ih =>
    intro m k
    rw [List.foldl_cons, ih, mem_keysOf_accumInto]
    constructor
    · rintro ((h | h) | ⟨x', hx', h⟩)
      · exact Or.inl h
      · exact Or.inr ⟨x, List.mem_cons_self x rest, h⟩
      · exact Or.inr ⟨x', List.mem_cons_of_mem x hx', h⟩
    · rintro (h | ⟨x', hx', h⟩)
      · exact Or.inl (Or.inl h)
      · rcases List.mem_cons.mp hx' with rfl | hx''
        · exact Or.inl (Or.inr h)
        · exact Or.inr ⟨x', hx'', h⟩

theorem nodup_keysOf_foldl_accumInto {α : Type} (ent : α → List (String × Int)) :
    ∀ (l : List α) (m : List (String × Int)), (keysOf m).Nodup →
    (keysOf (l.foldl (fun m' x => accumInto m' (ent x)) m)).Nodup := by
  intro l
  induction l with
  | nil => intro m hm; exact hm
  | cons x rest ih =>
    intro m hm
    exact ih _ (nodup_keysOf_accumInto _ m hm)

theorem keysOf_foldl_accumInto {α : Type} (ent : α → List (String × Int)) :
    ∀ (l : List α) (m : List (String × Int)),
    keysOf (l.foldl (fun m' x => accumInto m' (ent x)) m)
      = (l.flatMap (fun x => keysOf (ent x))).foldl addTopic (keysOf m) := by
  intro l
  induction l with
  | nil => intro m; rfl
  | cons x rest ih =>
    intro m
    rw [List.foldl_cons, ih, keysOf_accumInto, List.flatMap_cons, List.foldl_append]

/-- The four tally facts about one merged field: membership is exactly
(reported somewhere, score = cross-platform sum); keys are unique; the
presentation is descending by score; the stable sort preserves, within
every score class, the accumulation order, whose key order is the
first-encounter dedup of the concatenated per-platform key lists. -/
theorem mergedField_spec (get : PlatformAnalysis → Option (List (String × Int)))
    (analyses : List PlatformAnalysis) :
    (∀ k v, ((k, v) ∈ sortByScore (accumField get analyses) ↔
        ((∃ a ∈ analyses, k ∈ keysOf (fieldEntries get a))
          ∧ v = fieldTotal get analyses k)))
    ∧ ((sortByScore (accumField get analyses)).map Prod.fst).Nodup
    ∧ (sortByScore (accumField get analyses)).Pairwise (fun p q => q.2 ≤ p.2)
    ∧ (∀ c : Int, (sortByScore (accumField get analyses)).filter (fun p => p.2 == c)
        = (accumField get analyses).filter (fun p => p.2 == c))
    ∧ keysOf (accumField get analyses)
        = dedupFirst (fieldKeyOccurrences get analyses) := by
  have hperm := sortByScore_perm (accumField get analyses)
  have hnodup : (keysOf (accumField get analyses)).Nodup := by
    rw [accumField_eq]
    exact nodup_keysOf_foldl_accumInto _ analyses [] List.nodup_nil
  refine ⟨?_, ?_, sorted_sortByScore _, ?_, ?_⟩
  · intro k v
    rw [hperm.mem_iff, mem_record_iff hnodup]
    have hkeys : k ∈ keysOf (accumField get analyses) ↔
        ∃ a ∈ analyses, k ∈ keysOf (fieldEntries get a) := by
      rw [accumField_eq, mem_keysOf_foldl_accumInto]
      simp
    have hscore : scoreIn (accumField get analyses) k = fieldTotal get analyses k := by
      rw [accumField_eq, scoreIn_foldl_accumInto, scoreIn_nil]
      unfold fieldTotal
      ring
    rw [hkeys, hscore]
  · exact ((hperm.map (f := Prod.fst)).nodup_iff).mpr hnodup
  · intro c
    apply filter_sortByScore
    intro a b ha hb
    simp only [beq_iff_eq] at ha hb
    rw [ha, hb]
  · rw [accumField_eq, keysOf_foldl_accumInto]
    rfl

/-! ### Topic-union lemmas -/

theorem accumStringSet_step (get : PlatformAnalysis → Option (List String))
    (ts : List String) (a : PlatformAnalysis) :
    (match get a with
     | some l => l.foldl addTopic ts
     | none => ts) = ((get a).getD []).foldl addTopic ts := by
  cases hg : get a with
  | none => rfl
  | some l => rfl

theorem accumStringSet_eq (get : PlatformAnalysis → Option (List String))
    (analyses : List PlatformAnalysis) :
    accumStringSet get analyses
      = analyses.foldl (fun ts a => ((get a).getD []).foldl addTopic ts) [] := by
  unfold accumStringSet
  have hfun : (fun (ts : List String) (a : PlatformAnalysis) =>
      match get a with
      | some l => l.foldl addTopic ts
      | none => ts) = (fun ts a => ((get a).getD []).foldl addTopic ts) := by
    funext ts a
    exact accumStringSet_step get ts a
  rw [hfun]

theorem mem_accumStringSet (get : PlatformAnalysis → Option (List String)) :
    ∀ (analyses : List PlatformAnalysis) (ts : List String) (t : String),
    t ∈ analyses.foldl (fun ts' a => ((get a).getD []).foldl addTopic ts') ts ↔
      t ∈ ts ∨ ∃ a ∈ analyses, t ∈ (get a).getD [] := by
  intro analyses
  induction analyses with
  | nil => intro ts t; simp
  | cons a rest ih =>
    intro ts t
    rw [List.foldl_cons, ih, mem_foldl_addTopic]
    constructor
    · rintro ((h | h) | ⟨a', ha', h⟩)
      · exact Or.inl h
      · exact Or.inr ⟨a, List.mem_cons_self a rest, h⟩
      · exact Or.inr ⟨a', List.mem_cons_of_mem a ha', h⟩
    · rintro (h | ⟨a', ha', h⟩)
      · exact Or.inl (Or.inl h)
      · rcases List.mem_cons.mp ha' with rfl | ha''
        · exact Or.inl (Or.inr h)
        · exact Or.inr ⟨a', ha'', h⟩

theorem nodup_accumStringSet (get : PlatformAnalysis → Option (List String)) :
    ∀ (analyses : List PlatformAnalysis) (ts : List String), ts.Nodup →
    (analyses.foldl (fun ts' a => ((get a).getD []).foldl addTopic ts') ts).Nodup := by
  intro analyses
  induction analyses with
  | nil => intro ts h; exact h
  | cons a rest ih =>
    intro ts h
    exact ih _ (nodup_foldl_addTopic _ ts h)

/-- C1: each merged tally (languages, frameworks, tools) maps a key to
the sum of that key's scores over the platform analyses reporting it —
a key reported nowhere is absent — with unique keys presented in
descending score order, ties keeping first-encountered order (the
stable sort preserves the accumulation order within every score class,
and the accumulation keys are the first-encounter dedup of the
concatenated per-platform keys); the merged topics are the
duplicate-free union of the per-platform topic lists. -/
theorem merge_tech_stacks_spec (analyses : List PlatformAnalysis) :
    ((∀ k v, ((k, v) ∈ (mergeTechStacks analyses).languages ↔
        ((∃ a ∈ analyses, k ∈ keysOf (fieldEntries (fun x => x.techStack.languages) a))
          ∧ v = fieldTotal (fun x => x.techStack.languages) analyses k)))
      ∧ ((mergeTechStacks analyses).languages.map Prod.fst).Nodup
      ∧ (mergeTechStacks analyses).languages.Pairwise (fun p q => q.2 ≤ p.2)
      ∧ (∀ c : Int, (mergeTechStacks analyses).languages.filter (fun p => p.2 == c)
          = (accumField (fun x => x.techStack.languages) analyses).filter
              (fun p => p.2 == c))
      ∧ keysOf (accumField (fun x => x.techStack.languages) analyses)
          = dedupFirst (fieldKeyOccurrences (fun x => x.techStack.languages) analyses))
    ∧ ((∀ k v, ((k, v) ∈ (mergeTechStacks analyses).frameworks ↔
        ((∃ a ∈ analyses, k ∈ keysOf (fieldEntries (fun x => x.techStack.frameworks) a))
          ∧ v = fieldTotal (fun x => x.techStack.frameworks) analyses k)))
      ∧ ((mergeTechStacks analyses).frameworks.map Prod.fst).Nodup
      ∧ (mergeTechStacks analyses).frameworks.Pairwise (fun p q => q.2 ≤ p.2)
      ∧ (∀ c : Int, (mergeTechStacks analyses).frameworks.filter (fun p => p.2 == c)
          = (accumField (fun x => x.techStack.frameworks) analyses).filter
              (fun p => p.2 == c))
      ∧ keysOf (accumField (fun x => x.techStack.frameworks) analyses)
          = dedupFirst (fieldKeyOccurrences (fun x => x.techStack.frameworks) analyses))
    ∧ ((∀ k v, ((k, v) ∈ (mergeTechStacks analyses).tools ↔
        ((∃ a ∈ analyses, k ∈ keysOf (fieldEntries (fun x => x.techStack.tools) a))
          ∧ v = fieldTotal (fun x => x.techStack.tools) analyses k)))
      ∧ ((mergeTechStacks analyses).tools.map Prod.fst).Nodup
      ∧ (mergeTechStacks analyses).tools.Pairwise (fun p q => q.2 ≤ p.2)
      ∧ (∀ c : Int, (mergeTechStacks analyses).tools.filter (fun p => p.2 == c)
          = (accumField (fun x => x.techStack.tools) analyses).filter
              (fun p => p.2 == c))
      ∧ keysOf (accumField (fun x => x.techStack.tools) analyses)
          = dedupFirst (fieldKeyOccurrences (fun x => x.techStack.tools) analyses))
    ∧ ((mergeTechStacks analyses).topics.Nodup
      ∧ ∀ t, t ∈ (mergeTechStacks analyses).topics ↔
          ∃ a ∈ analyses, t ∈ (a.techStack.topics).getD []) := by
  refine ⟨?_, ?_, ?_, ?_, ?_⟩
  · exact mergedField_spec (fun x => x.techStack.languages) analyses
  · exact mergedField_spec (fun x => x.techStack.frameworks) analyses
  · exact mergedField_spec (fun x => x.techStack.tools) analyses
  · show (accumStringSet (fun x => x.techStack.topics) analyses).Nodup
    rw [accumStringSet_eq]
    exact nodup_accumStringSet _ analyses [] List.nodup_nil
  · intro t
    show t ∈ accumStringSet (fun x => x.techStack.topics) analyses ↔ _
    rw [accumStringSet_eq, mem_accumStringSet]
    simp

end HowPerson
